import Mathlib

/-!
Verification of the numeric display formatter in `src/toolkit/format.rs`.

The formatter is embedded shallowly.  IEEE-754 `f64` values are modelled by
the type `Fmt.F64`: the special values `NaN`, `+inf`, `-inf` and `-0.0` are
explicit constructors, and every other value is an exact fraction
`num / den` (an idealization of the binary64 finite values: real-number
arithmetic replaces rounded binary arithmetic, and the platform `log10`,
fixed-point rendering, string-to-float conversion and `f32` narrowing are
modelled exactly over these fractions).  All computations are expressed with
`Int`/`Nat` arithmetic on numerators and denominators so that every
definition evaluates by kernel reduction.

Platform primitives modelled here rather than translated from the
repository (they live in `std`/`egui`, not in `src/`):
  * `format!("{v:.n}")`   — exact decimal fixed-point rounding, ties to even,
    preserving the sign of `-0.0` (Rust renders `-0.0` with a leading `-`);
  * `format!("{:.*e}", p, v)` — scientific notation `d.dddde<exp>` with a
    bare decimal exponent;
  * `f64::from_str`       — the Rust float grammar
    `[sign] (digits [. digits?] | . digits) [e|E [sign] digits]` plus the
    case-insensitive forms `inf`, `infinity`, `nan`, evaluated exactly;
  * `char::is_whitespace` — the Unicode `White_Space` property;
  * `f32` narrowing and `egui::emath::almost_equal` — round-to-nearest-even
    narrowing to 24-bit dyadic significands, with the comparison formula of
    `almost_equal` evaluated by exact cross multiplication.
-/

namespace Fmt

/-- The minus character U+2212 (`MINUS` in `format.rs`). -/
def MINUS : Char := '−'

/-- The thin space U+2009 used as thousands separator (`THIN_SPACE` in `format.rs`). -/
def THIN_SPACE : Char := ' '

/-- ASCII digit test, `'0' ≤ c ≤ '9'`. -/
def isDigitC (c : Char) : Bool := 48 ≤ c.toNat ∧ c.toNat ≤ 57

/-- Model of Rust `char::is_whitespace`: the Unicode `White_Space` code points. -/
def rustIsWhitespace (c : Char) : Bool :=
  (9 ≤ c.toNat ∧ c.toNat ≤ 13) ∨ c.toNat = 32 ∨ c.toNat = 0x85 ∨ c.toNat = 0xA0 ∨
  c.toNat = 0x1680 ∨ (0x2000 ≤ c.toNat ∧ c.toNat ≤ 0x200A) ∨ c.toNat = 0x2028 ∨
  c.toNat = 0x2029 ∨ c.toNat = 0x202F ∨ c.toNat = 0x205F ∨ c.toNat = 0x3000

/-- Decimal digit character for a residue below ten. -/
def digitCharRaw : ℕ → Char
  | 0 => '0' | 1 => '1' | 2 => '2' | 3 => '3' | 4 => '4'
  | 5 => '5' | 6 => '6' | 7 => '7' | 8 => '8' | _ => '9'

/-- Decimal digit character of `m % 10`. -/
def digitChar (m : ℕ) : Char := digitCharRaw (m % 10)

/-- Decimal digits of `n` (most significant first), fueled structural recursion. -/
def natDigitsAux : ℕ → ℕ → List Char
  | 0, _ => []
  | f+1, n => if n = 0 then [] else natDigitsAux f (n / 10) ++ [digitChar n]

/-- Decimal rendering of a natural number, as Rust renders an unsigned integer. -/
def natStr (n : ℕ) : List Char := if n = 0 then ['0'] else natDigitsAux (n + 1) n

/-- Model of an `f64` value.  Finite nonzero values are exact fractions
`num / den` with `den` intended positive; `negZero` is IEEE `-0.0`. -/
inductive F64 where
  | nan
  | inf
  | neginf
  | negZero
  | val (num : ℤ) (den : ℕ)
deriving DecidableEq, Repr

/-- IEEE test `value < 0.0` (false for NaN and for `-0.0`). -/
def F64.lt0 : F64 → Bool
  | .neginf => true
  | .val n _ => n < 0
  | _ => false

/-- IEEE negation `-value`.  Note `-(-0.0) = +0.0`. -/
def F64.neg : F64 → F64
  | .nan => .nan
  | .inf => .neginf
  | .neginf => .inf
  | .negZero => .val 0 1
  | .val n d => .val (-n) d

/-- IEEE test `value == f64::INFINITY` (false for NaN). -/
def F64.isPosInf : F64 → Bool
  | .inf => true
  | _ => false

/-- Least `k` with `n ≤ d * 10^k`, fueled linear search from `k`. -/
def leastPow10GE (n d : ℕ) : ℕ → ℕ → ℕ
  | 0, k => k
  | f+1, k => if n ≤ d * 10 ^ k then k else leastPow10GE n d f (k + 1)

/-- Models `(value.log10()).max(0.0)` rounded up to an integer: `0` for
`value ≤ 1` (this clamps the `-∞` produced by `log10` at zero and the
negative magnitudes of subunit values), and for `value > 1` the unique
`k ≥ 1` with `10^(k-1) < value ≤ 10^k`.  Only this ceiling is observable in
`format_f64`, because the (possibly irrational) real magnitude is consumed
solely by `(precision - magnitude.max(0.0)) as usize`. -/
def ceilLog10Clamped : F64 → ℕ
  | .val n d => if n ≤ (d : ℤ) then 0 else leastPow10GE n.toNat d n.toNat 0
  | _ => 0

/-- Models the branch test `precision - magnitude.max(0.0) < 0.0`, i.e.
`value > 10^precision`. -/
def sciTest (precision : ℕ) : F64 → Bool
  | .val n d => (d : ℤ) * 10 ^ precision < n
  | _ => false

/-- Round `a / b` (for `b > 0`) to the nearest integer, ties to even. -/
def roundHalfEvenFrac (a b : ℤ) : ℤ :=
  let q := Int.fdiv a b
  let r := a - q * b
  if 2 * r < b then q
  else if b < 2 * r then q + 1
  else if q % 2 = 0 then q else q + 1

/-- Left-pad the rendering of the fractional numerator `fp < 10^decs` with
zeros to exactly `decs` digits. -/
def padZeros (decs : ℕ) (fp : ℕ) : List Char :=
  List.replicate (decs - (natStr fp).length) '0' ++ natStr fp

/-- Models Rust `format!("{v:.decs}")` for a non-negative fraction
`num / den`: exact decimal rounding, ties to even. -/
def fixedRenderNonneg (num : ℤ) (den : ℕ) (decs : ℕ) : List Char :=
  let r := (roundHalfEvenFrac (num * 10 ^ decs) den).toNat
  let ip := r / 10 ^ decs
  let fp := r % 10 ^ decs
  natStr ip ++ (if decs = 0 then [] else '.' :: padZeros decs fp)

/-- Models Rust `format!("{v:.decs}")` on the values that reach the
fixed-point branch.  Rust preserves the sign of `-0.0` (and of negative
values) as an ASCII hyphen. -/
def fixedRender (v : F64) (decs : ℕ) : List Char :=
  match v with
  | .negZero => '-' :: fixedRenderNonneg 0 1 decs
  | .val n d =>
      if n < 0 then '-' :: fixedRenderNonneg (-n) d decs
      else fixedRenderNonneg n d decs
  | _ => []

/-- Largest `k` with `d * 10^k ≤ n` (for `n > d ≥ 1`), as the least `k` with
`n < d * 10^(k+1)`, fueled linear search. -/
def floorLog10Aux (n d : ℕ) : ℕ → ℕ → ℕ
  | 0, k => k
  | f+1, k => if n < d * 10 ^ (k + 1) then k else floorLog10Aux n d f (k + 1)

/-- Floor of `log10 (n / d)` for `n ≥ d ≥ 1`. -/
def floorLog10 (n d : ℕ) : ℕ := floorLog10Aux n d n 0

/-- Models Rust `format!("{:.P e}", v)` for a positive fraction `n / d`:
mantissa `d.ddd` with `P` fractional digits (rounded to nearest, ties to
even, with exponent carry when the mantissa rounds up to `10.0`), then a
bare `e` and the decimal exponent. -/
def sciRender (n d : ℕ) (P : ℕ) : List Char :=
  let k := floorLog10 n d
  let m := (roundHalfEvenFrac ((n : ℤ) * 10 ^ P) ((d : ℤ) * 10 ^ k)).toNat
  let mk : ℕ × ℕ := if m = 10 ^ (P + 1) then (10 ^ P, k + 1) else (m, k)
  match natStr mk.1 with
  | [] => []
  | c :: rest => c :: ((if P = 0 then [] else '.' :: rest) ++ 'e' :: natStr mk.2)

/-- The options record of `format.rs` (`FloatFormatOptions`). -/
structure FloatFormatOptions where
  always_sign : Bool
  precision : ℕ
  num_decimals : Option ℕ
  strip_trailing_zeros : Bool
  min_decimals_for_thousands_separators : ℕ
deriving DecidableEq, Repr

/-- The 16-bit preset `DEFAULT_f16`. -/
def DEFAULT_f16 : FloatFormatOptions := ⟨false, 5, none, true, 6⟩

/-- The 32-bit preset `DEFAULT_f32`. -/
def DEFAULT_f32 : FloatFormatOptions := ⟨false, 7, none, true, 6⟩

/-- The 64-bit preset `DEFAULT_f64`. -/
def DEFAULT_f64 : FloatFormatOptions := ⟨false, 15, none, true, 6⟩

/-- Builder `with_always_sign`. -/
def FloatFormatOptions.with_always_sign (o : FloatFormatOptions) (b : Bool) :
    FloatFormatOptions := { o with always_sign := b }

/-- Builder `with_precision`. -/
def FloatFormatOptions.with_precision (o : FloatFormatOptions) (p : ℕ) :
    FloatFormatOptions := { o with precision := p }

/-- Builder `with_decimals`. -/
def FloatFormatOptions.with_decimals (o : FloatFormatOptions) (n : ℕ) :
    FloatFormatOptions := { o with num_decimals := some n }

/-- Builder `with_strip_trailing_zeros`. -/
def FloatFormatOptions.with_strip_trailing_zeros (o : FloatFormatOptions) (b : Bool) :
    FloatFormatOptions := { o with strip_trailing_zeros := b }

/-- Drop trailing `'0'` characters, then one trailing `'.'`, exactly as the
`strip_trailing_zeros` loop of `format_f64` does — but only when the string
contains a decimal point. -/
def stripTrailing (l : List Char) : List Char :=
  if l.contains '.' then
    let t := (l.reverse.dropWhile (fun c => c == '0')).reverse
    if t.getLast? = some '.' then t.dropLast else t
  else l

/-- The loop of `add_thousands_separators`: walk the reversed characters,
emitting a thin-space delimiter before every chunk of three except the
first.  Fueled structural recursion (the fuel is an upper bound on the
number of iterations). -/
def addThousandsAux : ℕ → List Char → List Char → List Char
  | 0, acc, _ => acc
  | f+1, acc, l =>
    match l with
    | [] => acc
    | _ =>
      let acc' := if acc.isEmpty then acc else acc ++ [THIN_SPACE]
      addThousandsAux f (acc' ++ l.take 3) (l.drop 3)

/-- `add_thousands_separators` from `format.rs`: insert `THIN_SPACE` every
three characters counting from the last character. -/
def addThousandsL (number : List Char) : List Char :=
  (addThousandsAux number.length [] number.reverse).reverse

/-- String-level `add_thousands_separators`. -/
def add_thousands_separators (number : String) : String :=
  ⟨addThousandsL number.data⟩

/-- Split at the first `'.'` (Rust `formatted.find('.')`): the integer part
and, when a dot occurs, the characters after it. -/
def splitDot (l : List Char) : List Char × Option (List Char) :=
  let ip := l.takeWhile (fun c => c ≠ '.')
  if ip.length = l.length then (ip, none) else (ip, some (l.drop (ip.length + 1)))

/-- The numeric (non-NaN, non-infinite) body of `format_f64`: scientific
fallback when the integer part exceeds the precision budget, otherwise
fixed-point rendering, trailing-zero stripping, and digit grouping. -/
def numericBody (o : FloatFormatOptions) (v : F64) : List Char :=
  if sciTest o.precision v then
    match v with
    | .val n d => sciRender n.toNat d (o.precision - 1)
    | _ => []
  else
    let maxDec := o.precision - ceilLog10Clamped v
    let numDec :=
      match o.num_decimals with
      | some nd => min nd maxDec
      | none => maxDec
    let formatted := fixedRender v numDec
    let formatted := if o.strip_trailing_zeros then stripTrailing formatted else formatted
    match splitDot formatted with
    | (ip, some fp) =>
        let ip' := addThousandsL ip
        if fp.length < o.min_decimals_for_thousands_separators then
          ip' ++ '.' :: fp
        else
          ip' ++ '.' :: (addThousandsL fp.reverse).reverse
    | (ip, none) => addThousandsL ip

/-- `FloatFormatOptions::format_f64` from `format.rs`, over `List Char`. -/
def formatF64L (o : FloatFormatOptions) (v : F64) : List Char :=
  match v with
  | .nan => "NaN".data
  | v =>
    let sv : List Char × F64 :=
      if v.lt0 then ([MINUS], v.neg)
      else if o.always_sign then (['+'], v)
      else ([], v)
    let abs_string := if sv.2.isPosInf then ['∞'] else numericBody o sv.2
    sv.1 ++ abs_string

/-- `FloatFormatOptions::format_f64` (and `format`) from `format.rs`. -/
def FloatFormatOptions.format_f64 (o : FloatFormatOptions) (v : F64) : String :=
  ⟨formatF64L o v⟩

/-- The free function `format_f64`, i.e. formatting with `DEFAULT_f64`. -/
def format_f64 (v : F64) : String := DEFAULT_f64.format_f64 v

/-- `strip_whitespace_and_normalize` from `format.rs`: drop every whitespace
character, then replace the typographic minus by an ASCII hyphen. -/
def stripNormL (l : List Char) : List Char :=
  (l.filter (fun c => !rustIsWhitespace c)).map (fun c => if c = MINUS then '-' else c)

/-- String-level `strip_whitespace_and_normalize`. -/
def strip_whitespace_and_normalize (text : String) : String :=
  ⟨stripNormL text.data⟩

/-- Consume one optional leading ASCII sign. -/
def takeSign (l : List Char) : Bool × List Char :=
  match l with
  | c :: r => if c = '-' then (true, r) else if c = '+' then (false, r) else (false, l)
  | [] => (false, [])

/-- ASCII lowercasing of one character. -/
def asciiLower (c : Char) : Char :=
  if 65 ≤ c.toNat ∧ c.toNat ≤ 90 then Char.ofNat (c.toNat + 32) else c

/-- Accumulate a digit string as a natural number. -/
def digitsToNat (l : List Char) : ℕ :=
  l.foldl (fun a c => 10 * a + (c.toNat - 48)) 0

/-- The sign-free part of the Rust `f64::from_str` model: `inf` /
`infinity` / `nan` case-insensitively; otherwise mantissa digits with at
most one dot and at least one digit, then an optional exponent `e`/`E`
with optional sign and at least one digit.  The value is computed exactly
(no binary64 rounding); a zero mantissa under a negative sign parses to
negative zero as in Rust. -/
def rustFromStrAux (neg : Bool) (r : List Char) : Option F64 :=
  let low := r.map asciiLower
  if low = "inf".data ∨ low = "infinity".data then
    some (if neg then .neginf else .inf)
  else if low = "nan".data then some .nan
  else
    let mant := r.takeWhile (fun c => c ≠ 'e' ∧ c ≠ 'E')
    let expPart := r.drop (mant.length + 1)
    let hasExp := mant.length < r.length
    let ip := mant.takeWhile (fun c => c ≠ '.')
    let fp := if ip.length = mant.length then [] else mant.drop (ip.length + 1)
    if ¬ (ip.all isDigitC) then none
    else if ¬ (fp.all isDigitC) then none
    else if ip.isEmpty ∧ fp.isEmpty then none
    else
      let pExp : Option ℤ :=
        if hasExp then
          let es := takeSign expPart
          if es.2.isEmpty ∨ ¬ (es.2.all isDigitC) then none
          else some (if es.1 then -(digitsToNat es.2 : ℤ) else (digitsToNat es.2 : ℤ))
        else some 0
      match pExp with
      | none => none
      | some ex =>
        let m : ℕ := digitsToNat (ip ++ fp)
        let e10 : ℤ := ex - fp.length
        if m = 0 then
          if neg then some .negZero else some (.val 0 1)
        else if 0 ≤ e10 then
          some (.val ((if neg then -(m : ℤ) else (m : ℤ)) * 10 ^ e10.toNat) 1)
        else
          some (.val (if neg then -(m : ℤ) else (m : ℤ)) (10 ^ (-e10).toNat))

/-- Model of Rust `f64::from_str`: an optional leading ASCII sign followed
by the sign-free grammar of `rustFromStrAux`. -/
def rustFromStr (l : List Char) : Option F64 :=
  let s := takeSign l
  rustFromStrAux s.1 s.2

/-- `parse_f64` from `format.rs`: normalize, then delegate to the platform
string-to-float conversion, turning failure into `none`. -/
def parse_f64 (text : String) : Option F64 :=
  rustFromStr (stripNormL text.data)

/-- Model of an `f32` value: special values, or a dyadic number `sig * 2^e`. -/
inductive F32 where
  | nan
  | inf
  | neginf
  | fin (sig : ℤ) (e : ℤ)
deriving DecidableEq, Repr

/-- Dyadic comparison `s1 * 2^e1 ≤ s2 * 2^e2`, by aligning exponents. -/
def dle : ℤ × ℤ → ℤ × ℤ → Bool
  | (s1, e1), (s2, e2) =>
    if e1 ≤ e2 then s1 ≤ s2 * 2 ^ (e2 - e1).toNat
    else s1 * 2 ^ (e1 - e2).toNat ≤ s2

/-- Dyadic equality `s1 * 2^e1 = s2 * 2^e2`. -/
def deqD : ℤ × ℤ → ℤ × ℤ → Bool
  | (s1, e1), (s2, e2) =>
    if e1 ≤ e2 then s1 = s2 * 2 ^ (e2 - e1).toNat
    else s1 * 2 ^ (e1 - e2).toNat = s2

/-- Dyadic subtraction. -/
def dsub : ℤ × ℤ → ℤ × ℤ → ℤ × ℤ
  | (s1, e1), (s2, e2) =>
    if e1 ≤ e2 then (s1 - s2 * 2 ^ (e2 - e1).toNat, e1)
    else (s1 * 2 ^ (e1 - e2).toNat - s2, e2)

/-- Number of halvings of `n` until it is below 2 — `Nat.log2` with explicit fuel. -/
def fuelLog2 : ℕ → ℕ → ℕ
  | 0, _ => 0
  | f+1, n => if n < 2 then 0 else fuelLog2 f (n / 2) + 1

/-- Least `m` starting from the given one with `d ≤ n * 2^m`, fueled linear search. -/
def leastPow2GE (n d : ℕ) : ℕ → ℕ → ℕ
  | 0, m => m
  | f+1, m => if d ≤ n * 2 ^ m then m else leastPow2GE n d f (m + 1)

/-- Floor of `log2 (n / d)` for `n ≥ 1`, `d ≥ 1`. -/
def floorLog2Frac (n d : ℕ) : ℤ :=
  if d ≤ n then (fuelLog2 n (n / d) : ℤ)
  else -(leastPow2GE n d d 1 : ℤ)

/-- Largest finite `f32`, `(2^24 - 1) * 2^104`. -/
def F32maxFinite : ℤ × ℤ := (2 ^ 24 - 1, 104)

/-- Dyadic strict comparison. -/
def dlt (a b : ℤ × ℤ) : Bool := ¬ dle b a

/-- Model of `x as f32` narrowing: round the exact fraction to the nearest
24-bit dyadic significand (ties to even), with subnormal quantum `2^-149`
and overflow to infinity beyond the largest finite `f32`. -/
def toF32 : F64 → F32
  | .nan => .nan
  | .inf => .inf
  | .neginf => .neginf
  | .negZero => .fin 0 0
  | .val n d =>
    if n = 0 then .fin 0 0
    else
      let na := n.natAbs
      let e := max (floorLog2Frac na d) (-126)
      let shift : ℤ := 23 - e
      let sig :=
        if 0 ≤ shift then roundHalfEvenFrac ((na : ℤ) * 2 ^ shift.toNat) (d : ℤ)
        else roundHalfEvenFrac (na : ℤ) ((d : ℤ) * 2 ^ (-shift).toNat)
      if dlt F32maxFinite (sig, e - 23) then (if n < 0 then .neginf else .inf)
      else .fin (if n < 0 then -sig else sig) (e - 23)

/-- The tolerance of the round-trip search, `16.0 * f32::EPSILON = 2^-19`. -/
def rtEpsilon : ℤ × ℤ := (1, -19)

/-- IEEE `f32` absolute value. -/
def F32.abs : F32 → F32
  | .nan => .nan
  | .inf => .inf
  | .neginf => .inf
  | .fin s e => .fin |s| e

/-- Rust `f32::max`: a NaN operand is ignored unless both are NaN. -/
def F32.maxRust : F32 → F32 → F32
  | .nan, b => b
  | a, .nan => a
  | .inf, _ => .inf
  | _, .inf => .inf
  | .neginf, b => b
  | a, .neginf => a
  | .fin s1 e1, .fin s2 e2 => if dle (s1, e1) (s2, e2) then .fin s2 e2 else .fin s1 e1

/-- IEEE `f32` equality (`NaN` equals nothing, `-0.0 = +0.0` holds because
both narrow to `fin 0`). -/
def F32.ieeeEq : F32 → F32 → Bool
  | .inf, .inf => true
  | .neginf, .neginf => true
  | .fin s1 e1, .fin s2 e2 => deqD (s1, e1) (s2, e2)
  | _, _ => false

/-- Model of `egui::emath::almost_equal(a, b, eps)` at `eps = rtEpsilon`:
equal values are always accepted; otherwise accept when
`abs_max ≤ eps` or `|a - b| / abs_max ≤ eps`, the division evaluated by
exact cross multiplication.  Comparisons on NaN are false, and a quotient
with an infinite operand yields NaN or loses to `eps`, exactly as in IEEE
arithmetic. -/
def almostEqualF32 (a b : F32) : Bool :=
  if F32.ieeeEq a b then true
  else
    match F32.maxRust a.abs b.abs with
    | .fin sm em =>
      if dle (sm, em) rtEpsilon then true
      else
        match a, b with
        | .fin s1 e1, .fin s2 e2 =>
          let df := dsub (s1, e1) (s2, e2)
          dle (|df.1|, df.2) (sm * rtEpsilon.1, em + rtEpsilon.2)
        | _, _ => false
    | _ => false

/-- The tolerance test of `format_with_decimals_in_range`:
`almost_equal(parsed as f32, value as f32, 16.0 * f32::EPSILON)`. -/
def almostEqualTol (parsed value : F64) : Bool :=
  almostEqualF32 (toF32 parsed) (toF32 value)

/-- The inner closure `format_with_decimals` of
`format_with_decimals_in_range`: the 64-bit preset with an explicit decimal
count and trailing-zero stripping disabled. -/
def format_with_decimals (value : F64) (decimals : ℕ) : String :=
  ((DEFAULT_f64.with_decimals decimals).with_strip_trailing_zeros false).format_f64 value

/-- The ascending scan of `format_with_decimals_in_range`: try each decimal
count, returning the first formatted text whose reparse is within tolerance
of the value.  The fuel is the number of loop iterations
(`max_decimals - min_decimals` at the call site). -/
def scanRT (value : F64) : ℕ → ℕ → Option String
  | 0, _ => none
  | f+1, d =>
    let text := format_with_decimals value d
    match parse_f64 text with
    | some parsed =>
        if almostEqualTol parsed value then some text else scanRT value f (d + 1)
    | none => scanRT value f (d + 1)

/-- `format_with_decimals_in_range` from `format.rs`. -/
def format_with_decimals_in_range (value : F64) (minDec maxDec : ℕ) : String :=
  let maxD := min maxDec 16
  let minD := min minDec maxD
  if minD < maxD then
    match scanRT value (maxD - minD) minD with
    | some text => text
    | none => format_with_decimals value maxD
  else format_with_decimals value maxD

/-- One candidate of the spec round-trip scan: the text formatted at `d`
decimals when its reparse is within tolerance of the value. -/
def rtCandidate (value : F64) (d : ℕ) : Option String :=
  let text := format_with_decimals value d
  match parse_f64 text with
  | some parsed => if almostEqualTol parsed value then some text else none
  | none => none

/-- The round-trip search as the spec describes it (§4.3): clamp the range,
list the decimal counts ascending from `min_decimals` up to but excluding
`max_decimals`, keep those whose formatted text reparses within tolerance of
the value, return the first such text, and fall back to formatting at
`max_decimals` when the scan is empty or exhausts. -/
def roundTripSearchSpec (value : F64) (minDec maxDec : ℕ) : String :=
  let maxD := min maxDec 16
  let minD := min minDec maxD
  match ((List.range' minD (maxD - minD)).filterMap (rtCandidate value)).head? with
  | some text => text
  | none => format_with_decimals value maxD

/-- Chunks of three taken from the front, fueled structural recursion. -/
def chunks3 : ℕ → List Char → List (List Char)
  | 0, _ => []
  | f+1, l => if l.isEmpty then [] else l.take 3 :: chunks3 f (l.drop 3)

/-- Join chunks with a single `THIN_SPACE` between consecutive chunks. -/
def joinSep : List (List Char) → List Char
  | [] => []
  | c :: rest => c ++ rest.flatMap (fun x => THIN_SPACE :: x)

/-- The chunks of a string, three at a time counted from the right end (the
spec wording for the grouping transform): the leading chunk holds the
leftover one or two characters when the length is not a multiple of three. -/
def rightChunks3 (l : List Char) : List (List Char) :=
  ((chunks3 l.length l.reverse).map List.reverse).reverse

/-- The decimal count `format_f64` actually renders with in its fixed-point
branch: `floor(precision - magnitude.max(0.0))`, capped by the explicit
`num_decimals` override when one is set.  No further constant cap is
applied. -/
def effectiveDecimals (o : FloatFormatOptions) (v : F64) : ℕ :=
  match o.num_decimals with
  | some nd => min nd (o.precision - ceilLog10Clamped v)
  | none => o.precision - ceilLog10Clamped v

/-- The digit characters strictly after the first `'.'` of a rendered
string (grouping separators are not counted). -/
def fracDigitCount (s : String) : ℕ :=
  ((splitDot s.data).2.getD []).countP (fun c => isDigitC c)

/-- Whether `format_f64` takes its scientific-notation fallback on this
value: after the sign step the remaining non-negative value is neither NaN
nor infinite and exceeds `10^precision`. -/
def takesSciFallback (o : FloatFormatOptions) (v : F64) : Bool :=
  match v with
  | .nan => false
  | v =>
    let w := if v.lt0 then v.neg else v
    !w.isPosInf && sciTest o.precision w

/-! ### Character facts -/

theorem isDigitC_digitCharRaw (r : ℕ) : isDigitC (digitCharRaw r) = true := by
  unfold digitCharRaw
  split <;> decide

theorem isDigitC_digitChar (m : ℕ) : isDigitC (digitChar m) = true :=
  isDigitC_digitCharRaw (m % 10)

theorem not_ws_of_digit {c : Char} (h : isDigitC c = true) : rustIsWhitespace c = false := by
  simp only [isDigitC, decide_eq_true_eq] at h
  simp only [rustIsWhitespace, decide_eq_false_iff_not]
  omega

theorem digit_ne_e {c : Char} (h : isDigitC c = true) : c ≠ 'e' := by
  intro he; subst he; exact absurd h (by decide)

theorem digit_ne_E {c : Char} (h : isDigitC c = true) : c ≠ 'E' := by
  intro he; subst he; exact absurd h (by decide)

theorem digit_ne_dot {c : Char} (h : isDigitC c = true) : c ≠ '.' := by
  intro he; subst he; exact absurd h (by decide)

theorem digit_ne_hyphen {c : Char} (h : isDigitC c = true) : c ≠ '-' := by
  intro he; subst he; exact absurd h (by decide)

theorem digit_ne_plus {c : Char} (h : isDigitC c = true) : c ≠ '+' := by
  intro he; subst he; exact absurd h (by decide)

theorem digit_ne_minusGlyph {c : Char} (h : isDigitC c = true) : c ≠ MINUS := by
  intro he; subst he; exact absurd h (by decide)

theorem digit_ne_sep {c : Char} (h : isDigitC c = true) : c ≠ THIN_SPACE := by
  intro he; subst he; exact absurd h (by decide)

theorem asciiLower_digit {c : Char} (h : isDigitC c = true) : asciiLower c = c := by
  simp only [isDigitC, decide_eq_true_eq] at h
  simp only [asciiLower]
  rw [if_neg (by omega)]

/-! ### Digit-string facts -/

theorem natDigitsAux_digits : ∀ f n, ∀ c ∈ natDigitsAux f n, isDigitC c = true := by
  intro f
  induction f with
  | zero => intro n c hc; simp [natDigitsAux] at hc
  | succ f ih =>
    intro n c hc
    by_cases h : n = 0
    · simp [natDigitsAux, h] at hc
    · simp only [natDigitsAux, if_neg h, List.mem_append, List.mem_singleton] at hc
      rcases hc with hc | hc
      · exact ih _ c hc
      · subst hc; exact isDigitC_digitChar n

theorem natStr_digits (n : ℕ) : ∀ c ∈ natStr n, isDigitC c = true := by
  intro c hc
  unfold natStr at hc
  split at hc
  · simp at hc; subst hc; decide
  · exact natDigitsAux_digits _ n c hc

theorem natStr_ne_nil (n : ℕ) : natStr n ≠ [] := by
  unfold natStr
  split
  · simp
  · intro hEq
    rename_i h
    rw [show n + 1 = n + 1 from rfl] at hEq
    simp only [natDigitsAux, if_neg h] at hEq
    have := congrArg List.length hEq
    simp at this

theorem natDigitsAux_fuel : ∀ n f g, n < f → n < g → natDigitsAux f n = natDigitsAux g n := by
  intro n
  induction n using Nat.strong_induction_on with
  | _ n ih =>
    intro f g hf hg
    match f, g with
    | f + 1, g + 1 =>
      by_cases h : n = 0
      · simp [natDigitsAux, h]
      · simp only [natDigitsAux, if_neg h]
        rw [ih (n / 10) (Nat.div_lt_self (by omega) (by omega)) f g (by omega) (by omega)]

theorem natDigitsAux_length_le : ∀ k n, n < 10 ^ k → (natDigitsAux (n + 1) n).length ≤ k := by
  intro k
  induction k with
  | zero =>
    intro n h
    have : n = 0 := by simpa using h
    subst this; simp [natDigitsAux]
  | succ k ih =>
    intro n h
    by_cases h0 : n = 0
    · subst h0; simp [natDigitsAux]
    · simp only [natDigitsAux, if_neg h0, List.length_append, List.length_singleton]
      have hdiv : n / 10 < 10 ^ k := by
        rw [Nat.div_lt_iff_lt_mul (by omega)]
        calc n < 10 ^ (k + 1) := h
        _ = 10 ^ k * 10 := by rw [pow_succ]
      have hfuel : natDigitsAux n (n / 10) = natDigitsAux (n / 10 + 1) (n / 10) :=
        natDigitsAux_fuel (n / 10) n (n / 10 + 1)
          (Nat.div_lt_self (by omega) (by omega)) (by omega)
      rw [hfuel]
      have := ih (n / 10) hdiv
      omega

theorem natStr_length_le {n k : ℕ} (hk : 1 ≤ k) (h : n < 10 ^ k) : (natStr n).length ≤ k := by
  unfold natStr
  split
  · simpa using hk
  · exact natDigitsAux_length_le k n h

/-! ### takeWhile / drop helpers -/

theorem takeWhile_all {p : Char → Bool} (l : List Char) (h : ∀ c ∈ l, p c = true) :
    l.takeWhile p = l :=
  List.takeWhile_eq_self_iff.mpr h

theorem takeWhile_append_stop {p : Char → Bool} (a b : List Char) (x : Char)
    (ha : ∀ c ∈ a, p c = true) (hx : p x = false) :
    (a ++ x :: b).takeWhile p = a := by
  rw [List.takeWhile_append, takeWhile_all a ha]
  simp [List.takeWhile_cons, hx]

theorem drop_append_cons (a b : List Char) (x : Char) :
    (a ++ x :: b).drop (a.length + 1) = b := by
  have h1 : a ++ x :: b = (a ++ [x]) ++ b := by simp
  have h2 : (a ++ [x]).length = a.length + 1 := by simp
  rw [h1, ← h2, List.drop_left]

/-! ### padZeros facts -/

theorem padZeros_digits (decs fp : ℕ) : ∀ c ∈ padZeros decs fp, isDigitC c = true := by
  intro c hc
  simp only [padZeros, List.mem_append, List.mem_replicate] at hc
  rcases hc with ⟨-, hc⟩ | hc
  · subst hc; decide
  · exact natStr_digits fp c hc

theorem padZeros_ne_nil (decs fp : ℕ) : padZeros decs fp ≠ [] := by
  simp only [padZeros]
  intro hEq
  rcases List.append_eq_nil.mp hEq with ⟨-, h2⟩
  exact natStr_ne_nil fp h2

theorem padZeros_length {decs fp : ℕ} (h : (natStr fp).length ≤ decs) :
    (padZeros decs fp).length = decs := by
  simp [padZeros]
  omega

/-! ### Grouping (add_thousands_separators) facts -/

theorem chunks3_nil (f : ℕ) : chunks3 f [] = [] := by
  cases f <;> simp [chunks3]

theorem addThousandsAux_nil (f : ℕ) (acc : List Char) : addThousandsAux f acc [] = acc := by
  cases f <;> simp [addThousandsAux]

theorem addThousandsAux_acc : ∀ f (r acc : List Char), acc ≠ [] → r.length ≤ f →
    addThousandsAux f acc r = acc ++ (chunks3 f r).flatMap (fun x => THIN_SPACE :: x) := by
  intro f
  induction f with
  | zero =>
    intro r acc hacc hr
    have hrnil : r = [] := List.length_eq_zero.mp (Nat.le_zero.mp hr)
    subst hrnil
    simp [addThousandsAux, chunks3]
  | succ f ih =>
    intro r acc hacc hr
    match r with
    | [] => simp [addThousandsAux, chunks3]
    | c :: t =>
      simp only [addThousandsAux]
      rw [if_neg (by simpa [List.isEmpty_iff] using hacc)]
      rw [ih ((c :: t).drop 3) (acc ++ [THIN_SPACE] ++ (c :: t).take 3) (by simp)
        (by simp only [List.length_drop, List.length_cons] at *; omega)]
      simp only [chunks3, List.isEmpty_cons, Bool.false_eq_true, if_false, List.flatMap_cons]
      simp [List.append_assoc]

theorem addThousandsAux_join : ∀ f (r : List Char), r.length ≤ f →
    addThousandsAux f [] r = joinSep (chunks3 f r) := by
  intro f r hr
  match f, r with
  | f, [] => simp [addThousandsAux_nil, chunks3_nil, joinSep]
  | 0, c :: t => simp at hr
  | f+1, c :: t =>
    simp only [addThousandsAux]
    rw [show (if ([] : List Char).isEmpty = true then ([] : List Char) else [] ++ [THIN_SPACE]) ++
        (c :: t).take 3 = (c :: t).take 3 from rfl]
    rw [addThousandsAux_acc f ((c :: t).drop 3) ((c :: t).take 3) (by simp)
      (by simp only [List.length_drop, List.length_cons] at *; omega)]
    simp [chunks3, joinSep]

theorem flatMapRev_append : ∀ (ys : List (List Char)) (z : List Char),
    ys.flatMap (fun x => x.reverse ++ [THIN_SPACE]) ++ z =
      joinSep (ys.map List.reverse ++ [z]) := by
  intro ys
  induction ys with
  | nil => intro z; simp [joinSep]
  | cons y t ih =>
    intro z
    simp only [List.flatMap_cons, List.map_cons, List.cons_append, joinSep]
    have hne : t.map List.reverse ++ [z] ≠ [] := by simp
    match hmt : t.map List.reverse ++ [z] with
    | [] => exact absurd hmt hne
    | a :: t' =>
      have : (a :: t').flatMap (fun x => THIN_SPACE :: x) = THIN_SPACE :: joinSep (a :: t') := by
        simp [joinSep, List.flatMap_cons]
      rw [this, ← hmt, ← ih z]
      simp [List.append_assoc]

theorem reverse_flatMapSep : ∀ (t : List (List Char)),
    (t.flatMap (fun x => THIN_SPACE :: x)).reverse =
      t.reverse.flatMap (fun x => x.reverse ++ [THIN_SPACE]) := by
  intro t
  induction t with
  | nil => rfl
  | cons a t ih =>
    simp only [List.flatMap_cons, List.reverse_append, List.reverse_cons, ih,
      List.reverse_reverse, List.flatMap_append, List.flatMap_cons, List.flatMap_nil]
    simp

theorem joinSep_reverse (cs : List (List Char)) :
    (joinSep cs).reverse = joinSep ((cs.map List.reverse).reverse) := by
  match cs with
  | [] => rfl
  | c :: rest =>
    simp only [joinSep, List.reverse_append]
    rw [reverse_flatMapSep, flatMapRev_append]
    congr 1
    simp [List.map_reverse]

theorem addThousandsL_eq_joinSep (l : List Char) :
    addThousandsL l = joinSep (rightChunks3 l) := by
  unfold addThousandsL rightChunks3
  rw [addThousandsAux_join l.length l.reverse (by simp)]
  exact joinSep_reverse (chunks3 l.length l.reverse)

theorem chunks3_flatten : ∀ f (r : List Char), r.length ≤ f → (chunks3 f r).flatten = r := by
  intro f
  induction f with
  | zero =>
    intro r hr
    have : r = [] := List.length_eq_zero.mp (Nat.le_zero.mp hr)
    subst this; simp [chunks3]
  | succ f ih =>
    intro r hr
    match r with
    | [] => simp [chunks3]
    | c :: t =>
      simp only [chunks3, List.isEmpty_cons, Bool.false_eq_true, if_false, List.flatten_cons]
      rw [ih ((c :: t).drop 3) (by simp only [List.length_drop, List.length_cons] at *; omega)]
      exact List.take_append_drop 3 (c :: t)

theorem chunks3_length : ∀ f (r : List Char), r.length ≤ f →
    (chunks3 f r).length = (r.length + 2) / 3 := by
  intro f
  induction f with
  | zero =>
    intro r hr
    have : r = [] := List.length_eq_zero.mp (Nat.le_zero.mp hr)
    subst this; simp [chunks3]
  | succ f ih =>
    intro r hr
    match r with
    | [] => simp [chunks3]
    | c :: t =>
      simp only [chunks3, List.isEmpty_cons, Bool.false_eq_true, if_false, List.length_cons]
      rw [ih ((c :: t).drop 3) (by simp only [List.length_drop, List.length_cons] at *; omega)]
      simp only [List.length_drop, List.length_cons]
      omega

theorem chunks3_mem_ne_nil : ∀ f (r : List Char), ∀ c ∈ chunks3 f r, c ≠ [] := by
  intro f
  induction f with
  | zero => intro r c hc; simp [chunks3] at hc
  | succ f ih =>
    intro r c hc
    match r with
    | [] => simp [chunks3] at hc
    | x :: t =>
      simp only [chunks3, List.isEmpty_cons, Bool.false_eq_true, if_false,
        List.mem_cons] at hc
      rcases hc with hc | hc
      · subst hc; simp
      · exact ih _ c hc

theorem chunks3_mem_subset : ∀ f (r c : List Char), c ∈ chunks3 f r → ∀ x ∈ c, x ∈ r := by
  intro f
  induction f with
  | zero => intro r c hc; simp [chunks3] at hc
  | succ f ih =>
    intro r c hc x hx
    match r with
    | [] => simp [chunks3] at hc
    | y :: t =>
      simp only [chunks3, List.isEmpty_cons, Bool.false_eq_true, if_false,
        List.mem_cons] at hc
      rcases hc with hc | hc
      · subst hc; exact List.mem_of_mem_take hx
      · exact List.mem_of_mem_drop (ih _ c hc x hx)

theorem flatMapSep_filter {p : Char → Bool} (hp : p THIN_SPACE = false) :
    ∀ t : List (List Char),
      (t.flatMap (fun x => THIN_SPACE :: x)).filter p = t.flatten.filter p := by
  intro t
  induction t with
  | nil => rfl
  | cons a t ih =>
    simp [List.flatMap_cons, List.filter_append, List.filter_cons, hp, ih, List.flatten_cons]

theorem joinSep_filter {p : Char → Bool} (hp : p THIN_SPACE = false)
    (cs : List (List Char)) : (joinSep cs).filter p = cs.flatten.filter p := by
  cases cs with
  | nil => rfl
  | cons c t =>
    simp [joinSep, List.filter_append, flatMapSep_filter hp, List.flatten_cons]

theorem flatMapSep_count : ∀ t : List (List Char),
    (t.flatMap (fun x => THIN_SPACE :: x)).count THIN_SPACE =
      t.length + t.flatten.count THIN_SPACE := by
  intro t
  induction t with
  | nil => rfl
  | cons a t ih =>
    simp only [List.flatMap_cons, List.count_append, List.count_cons_self,
      List.flatten_cons, List.length_cons, ih]
    omega

theorem joinSep_count (cs : List (List Char)) :
    (joinSep cs).count THIN_SPACE = (cs.length - 1) + cs.flatten.count THIN_SPACE := by
  cases cs with
  | nil => rfl
  | cons c t =>
    simp only [joinSep, List.count_append, flatMapSep_count, List.flatten_cons,
      List.length_cons]
    omega

theorem flatMapSep_length : ∀ t : List (List Char),
    (t.flatMap (fun x => THIN_SPACE :: x)).length = t.length + t.flatten.length := by
  intro t
  induction t with
  | nil => rfl
  | cons a t ih =>
    simp only [List.flatMap_cons, List.length_append, List.length_cons, ih,
      List.flatten_cons]
    omega

theorem joinSep_length (cs : List (List Char)) :
    (joinSep cs).length = cs.flatten.length + (cs.length - 1) := by
  cases cs with
  | nil => rfl
  | cons c t =>
    simp only [joinSep, List.length_append, flatMapSep_length, List.flatten_cons,
      List.length_cons]
    omega

theorem flatMapSep_mem {x : Char} : ∀ t : List (List Char),
    x ∈ t.flatMap (fun y => THIN_SPACE :: y) → x ∈ t.flatten ∨ x = THIN_SPACE := by
  intro t
  induction t with
  | nil => intro h; simp at h
  | cons a t ih =>
    intro h
    simp only [List.flatMap_cons, List.mem_append, List.mem_cons] at h
    rcases h with (h | h) | h
    · right; exact h
    · left; simp [List.flatten_cons, h]
    · rcases ih h with h' | h'
      · left; simp only [List.flatten_cons, List.mem_append]; right; exact h'
      · right; exact h'

theorem joinSep_mem {x : Char} (cs : List (List Char)) :
    x ∈ joinSep cs → x ∈ cs.flatten ∨ x = THIN_SPACE := by
  cases cs with
  | nil => intro h; simp [joinSep] at h
  | cons c t =>
    intro h
    simp only [joinSep, List.mem_append] at h
    rcases h with h | h
    · left; simp [List.flatten_cons, h]
    · rcases flatMapSep_mem t h with h' | h'
      · left; simp only [List.flatten_cons, List.mem_append]; right; exact h'
      · right; exact h'

theorem rightChunks3_flatten (l : List Char) : (rightChunks3 l).flatten = l := by
  unfold rightChunks3
  rw [← List.reverse_flatten]
  rw [chunks3_flatten l.length l.reverse (by simp)]
  simp

theorem rightChunks3_length (l : List Char) :
    (rightChunks3 l).length = (l.length + 2) / 3 := by
  unfold rightChunks3
  simp only [List.length_reverse, List.length_map]
  rw [chunks3_length l.length l.reverse (by simp)]
  simp

/-- Characters of a grouped string: those of the input plus the separator. -/
theorem addThousandsL_mem {x : Char} (l : List Char) :
    x ∈ addThousandsL l → x ∈ l ∨ x = THIN_SPACE := by
  rw [addThousandsL_eq_joinSep]
  intro h
  rcases joinSep_mem _ h with h' | h'
  · left; rwa [rightChunks3_flatten] at h'
  · right; exact h'

/-- Filtering out whitespace undoes the grouping. -/
theorem addThousandsL_filter {p : Char → Bool} (hp : p THIN_SPACE = false)
    (l : List Char) : (addThousandsL l).filter p = l.filter p := by
  rw [addThousandsL_eq_joinSep, joinSep_filter hp, rightChunks3_flatten]

theorem addThousandsL_count (l : List Char) :
    (addThousandsL l).count THIN_SPACE =
      ((l.length + 2) / 3 - 1) + l.count THIN_SPACE := by
  rw [addThousandsL_eq_joinSep, joinSep_count, rightChunks3_flatten, rightChunks3_length]

theorem addThousandsL_length (l : List Char) :
    (addThousandsL l).length = l.length + ((l.length + 2) / 3 - 1) := by
  rw [addThousandsL_eq_joinSep, joinSep_length, rightChunks3_flatten, rightChunks3_length]

theorem addThousandsAux_getLast : ∀ f (acc r : List Char), r ≠ [] → r.length ≤ f →
    (addThousandsAux f acc r).getLast? = r.getLast? := by
  intro f
  induction f with
  | zero =>
    intro acc r hr hlen
    exact absurd (List.length_eq_zero.mp (Nat.le_zero.mp hlen)) hr
  | succ f ih =>
    intro acc r hr hlen
    match r with
    | c :: t =>
      simp only [addThousandsAux]
      by_cases hd : (c :: t).drop 3 = []
      · rw [hd, addThousandsAux_nil]
        have htake : (c :: t).take 3 = c :: t := by
          have : (c :: t).length ≤ 3 := by
            have := congrArg List.length hd
            simp only [List.length_drop, List.length_nil] at this
            omega
          exact List.take_of_length_le this
        rw [htake]
        exact List.getLast?_append_of_ne_nil _ hr
      · rw [ih _ ((c :: t).drop 3) hd
          (by simp only [List.length_drop, List.length_cons] at *; omega)]
        conv_rhs => rw [← List.take_append_drop 3 (c :: t)]
        rw [List.getLast?_append_of_ne_nil _ hd]

theorem addThousandsL_head (l : List Char) (h : l ≠ []) :
    (addThousandsL l).head? = l.head? := by
  unfold addThousandsL
  rw [List.head?_reverse]
  rw [addThousandsAux_getLast l.length [] l.reverse (by simpa using h) (by simp)]
  exact List.getLast?_reverse l

theorem addThousandsL_head_ne_sep (s : String) (h1 : s.data ≠ [])
    (h2 : ∀ c ∈ s.data, isDigitC c = true) :
    (addThousandsL s.data).head? ≠ some THIN_SPACE := by
  rw [addThousandsL_head s.data h1]
  obtain ⟨c, t, hct⟩ := List.exists_cons_of_ne_nil h1
  rw [hct]
  intro hEq
  have hc : c = THIN_SPACE := by simpa using hEq
  have := h2 c (by rw [hct]; exact List.mem_cons_self c t)
  rw [hc] at this
  exact absurd this (by decide)

theorem addThousandsL_short (l : List Char) (h : l.length ≤ 3) :
    addThousandsL l = l := by
  cases l with
  | nil => rfl
  | cons c t =>
    rw [addThousandsL_eq_joinSep]
    have hchunks : chunks3 (c :: t).length (c :: t).reverse = [(c :: t).reverse] := by
      simp only [List.length_cons, chunks3]
      rw [if_neg (by simp)]
      have h1 : (c :: t).reverse.take 3 = (c :: t).reverse :=
        List.take_of_length_le (by simpa using h)
      have h2 : (c :: t).reverse.drop 3 = [] :=
        List.drop_eq_nil_of_le (by simpa using h)
      rw [h1, h2, chunks3_nil]
    unfold rightChunks3
    rw [hchunks]
    simp [joinSep]

/-! ### splitDot and stripTrailing helpers -/

theorem splitDot_no_dot (l : List Char) (h : ∀ c ∈ l, c ≠ '.') :
    splitDot l = (l, none) := by
  unfold splitDot
  rw [takeWhile_all l (fun c hc => decide_eq_true (h c hc))]
  rw [if_pos rfl]

theorem splitDot_dot (a b : List Char) (ha : ∀ c ∈ a, c ≠ '.') :
    splitDot (a ++ '.' :: b) = (a, some b) := by
  unfold splitDot
  rw [takeWhile_append_stop a b '.' (fun c hc => decide_eq_true (ha c hc)) (by simp)]
  rw [if_neg (by simp)]
  rw [drop_append_cons]

theorem dropWhile_replicate_append {p : Char → Bool} (n : ℕ) (a : Char)
    (l : List Char) (h : p a = true) :
    List.dropWhile p (List.replicate n a ++ l) = List.dropWhile p l := by
  induction n with
  | zero => simp
  | succ n ih => simp [List.replicate_succ, List.dropWhile_cons, h, ih]

theorem contains_of_mem {l : List Char} {c : Char} (h : c ∈ l) : l.contains c = true := by
  simpa [List.contains] using h

theorem not_contains_of_forall_ne {l : List Char} {c : Char}
    (h : ∀ x ∈ l, x ≠ c) : l.contains c = false := by
  simp only [List.contains, List.elem_eq_mem, decide_eq_false_iff_not]
  intro hmem
  exact h c hmem rfl

theorem stripTrailing_no_dot (l : List Char) (h : l.contains '.' = false) :
    stripTrailing l = l := by
  unfold stripTrailing
  rw [h]
  simp

/-! ### Rendering of the value zero -/

theorem roundHalfEvenFrac_zero (b : ℤ) (hb : 0 < b) : roundHalfEvenFrac 0 b = 0 := by
  unfold roundHalfEvenFrac
  rw [Int.zero_fdiv]
  simp
  omega

theorem fixedRenderNonneg_zero (nd : ℕ) :
    fixedRenderNonneg 0 1 nd = '0' :: (if nd = 0 then [] else '.' :: padZeros nd 0) := by
  unfold fixedRenderNonneg
  simp only [Nat.cast_one]
  rw [zero_mul, roundHalfEvenFrac_zero 1 one_pos]
  simp only [Int.toNat_zero, Nat.zero_div, Nat.zero_mod]
  rw [show natStr 0 = ['0'] from rfl]
  simp

theorem padZeros_zero {nd : ℕ} (h : 1 ≤ nd) : padZeros nd 0 = List.replicate nd '0' := by
  simp only [padZeros]
  rw [show natStr 0 = ['0'] from rfl]
  simp only [List.length_singleton]
  rw [show List.replicate (nd - 1) '0' ++ ['0'] = List.replicate (nd - 1 + 1) '0' from
    (List.replicate_succ' (nd - 1) '0').symm]
  congr 1
  omega

/-! ### Shape of the output at negative zero -/

theorem numericBody_negZero_shape (o : FloatFormatOptions) :
    ∃ tail, numericBody o F64.negZero = '-' :: '0' :: tail := by
  simp only [numericBody]
  rw [show sciTest o.precision F64.negZero = false from rfl]
  simp only [Bool.false_eq_true, if_false]
  generalize (match o.num_decimals with
    | some nd => min nd (o.precision - ceilLog10Clamped F64.negZero)
    | none => o.precision - ceilLog10Clamped F64.negZero) = nd
  rw [show fixedRender F64.negZero nd = '-' :: fixedRenderNonneg 0 1 nd from rfl]
  rw [fixedRenderNonneg_zero nd]
  rcases Nat.eq_zero_or_pos nd with h0 | h1
  · subst h0
    rw [if_pos rfl]
    have hcont : (['-', '0'] : List Char).contains '.' = false := by decide
    have hstrip : (if o.strip_trailing_zeros = true then stripTrailing ['-', '0']
        else ['-', '0']) = ['-', '0'] := by
      cases o.strip_trailing_zeros <;> simp [stripTrailing_no_dot _ hcont]
    rw [hstrip]
    rw [show splitDot ['-', '0'] = (['-', '0'], none) from splitDot_no_dot _ (by decide)]
    refine ⟨[], ?_⟩
    show addThousandsL ['-', '0'] = ['-', '0']
    exact addThousandsL_short _ (by decide)
  · rw [if_neg (show ¬ nd = 0 by omega), padZeros_zero h1]
    cases hs : o.strip_trailing_zeros
    · -- no stripping: split at the dot and group
      rw [show ('-' :: '0' :: '.' :: List.replicate nd '0')
          = ['-', '0'] ++ '.' :: List.replicate nd '0' from rfl]
      simp only [Bool.false_eq_true, if_false]
      rw [splitDot_dot ['-', '0'] (List.replicate nd '0') (by decide)]
      show ∃ tail, (if (List.replicate nd '0').length <
          o.min_decimals_for_thousands_separators then
          addThousandsL ['-', '0'] ++ '.' :: List.replicate nd '0'
        else addThousandsL ['-', '0'] ++
          '.' :: (addThousandsL (List.replicate nd '0').reverse).reverse)
        = '-' :: '0' :: tail
      rw [addThousandsL_short ['-', '0'] (by decide)]
      by_cases hb : (List.replicate nd '0').length < o.min_decimals_for_thousands_separators
      · exact ⟨'.' :: List.replicate nd '0', by rw [if_pos hb]; rfl⟩
      · exact ⟨'.' :: (addThousandsL (List.replicate nd '0').reverse).reverse,
          by rw [if_neg hb]; rfl⟩
    · -- stripping removes the zeros and the dot
      have hcont : ('-' :: '0' :: '.' :: List.replicate nd '0').contains '.' = true :=
        contains_of_mem (by simp)
      have hstrip : stripTrailing ('-' :: '0' :: '.' :: List.replicate nd '0')
          = ['-', '0'] := by
        unfold stripTrailing
        rw [hcont, if_pos rfl]
        have hrev : ('-' :: '0' :: '.' :: List.replicate nd '0').reverse
            = List.replicate nd '0' ++ ['.', '0', '-'] := by
          simp [List.reverse_cons, List.reverse_replicate, List.append_assoc]
        rw [hrev, dropWhile_replicate_append nd '0' _ (by decide)]
        rw [show List.dropWhile (fun c => c == '0') ['.', '0', '-'] = ['.', '0', '-'] from rfl]
        rfl
      rw [if_pos rfl, hstrip]
      rw [show splitDot ['-', '0'] = (['-', '0'], none) from splitDot_no_dot _ (by decide)]
      refine ⟨[], ?_⟩
      show addThousandsL ['-', '0'] = ['-', '0']
      exact addThousandsL_short _ (by decide)

/-! ### Claim C4 -/

/-- C4: for every configuration, including `always_sign = true` and any
precision, override, stripping or grouping-threshold setting,
`format(NaN)` is exactly the three-character string `"NaN"`: no sign
prefix and no other characters. -/
theorem C4_nan_exact (o : FloatFormatOptions) : o.format_f64 F64.nan = ⟨['N', 'a', 'N']⟩ :=
  rfl

/-! ### Claim C5 -/

/-- C5 counterexample: with the 64-bit preset, `format(-0.0)` is `"-0"`
while `format(+0.0)` is `"0"`, so the two are not equal — refuting the
claim that `format(-0.0, options)` always equals `format(+0.0, options)`. -/
theorem C5_counterexample :
    DEFAULT_f64.format_f64 F64.negZero = ⟨['-', '0']⟩ ∧
    DEFAULT_f64.format_f64 (F64.val 0 1) = ⟨['0']⟩ ∧
    DEFAULT_f64.format_f64 F64.negZero ≠ DEFAULT_f64.format_f64 (F64.val 0 1) := by
  refine ⟨by decide, by decide, by decide⟩

/-- C5 (amended): `format(-0.0, options)` never begins with the
distinguished minus glyph U+2212 — the sign step treats `-0.0` as
non-negative — but it is not always equal to `format(+0.0, options)`: the
platform fixed-point rendering preserves the IEEE sign of negative zero as
an ASCII hyphen, so the 64-bit preset renders `-0.0` as `"-0"` and `+0.0`
as `"0"`. -/
theorem C5_negZero_amended (o : FloatFormatOptions) :
    (o.format_f64 F64.negZero).data.head? ≠ some MINUS ∧
    DEFAULT_f64.format_f64 F64.negZero = ⟨['-', '0']⟩ ∧
    DEFAULT_f64.format_f64 F64.negZero ≠ DEFAULT_f64.format_f64 (F64.val 0 1) := by
  refine ⟨?_, by decide, by decide⟩
  show (formatF64L o F64.negZero).head? ≠ some MINUS
  have hL : formatF64L o F64.negZero =
      (if o.always_sign then ['+'] else []) ++ numericBody o F64.negZero := by
    cases h : o.always_sign <;>
      simp [formatF64L, F64.lt0, F64.isPosInf, h]
  obtain ⟨tail, htail⟩ := numericBody_negZero_shape o
  rw [hL, htail]
  cases h : o.always_sign
  · simp only [Bool.false_eq_true, if_false, List.nil_append, List.head?_cons]
    decide
  · rw [if_pos rfl]
    simp only [List.cons_append, List.head?_cons]
    decide

/-! ### Claim C8 -/

/-- C8: `parse_f64` never fails loudly: for every input it is exactly the
platform string-to-float conversion applied to the
whitespace-stripped, minus-normalized text — yielding the converted value
when that conversion succeeds and `none` (never a crash; the function is
total) when it fails — and in particular the empty string, a string with
two decimal points, and a non-numeric string all parse to `none`. -/
theorem C8_parse_never_fails (t : String) :
    (∀ v, rustFromStr (strip_whitespace_and_normalize t).data = some v →
      parse_f64 t = some v) ∧
    (rustFromStr (strip_whitespace_and_normalize t).data = none → parse_f64 t = none) ∧
    parse_f64 ⟨[]⟩ = none ∧
    parse_f64 ⟨['1', '.', '2', '.', '3']⟩ = none ∧
    parse_f64 ⟨['a', 'b', 'c']⟩ = none :=
  ⟨fun _ h => h, fun h => h, by decide, by decide, by decide⟩

/-- Witness for C8: the typographic-minus string `"−5"` normalizes and
converts to `-5`, and `parse_f64` returns exactly that. -/
theorem C8_parse_never_fails_witness :
    parse_f64 ⟨[MINUS, '5']⟩ = some (F64.val (-5) 1) :=
  (C8_parse_never_fails ⟨[MINUS, '5']⟩).1 (F64.val (-5) 1) (by decide)

/-! ### Claim C10 -/

/-- C10: the formatter's infinity output cannot be read back by the
module's own parser: for every options, the formatted `+∞` is `"∞"` or
`"+∞"` and the formatted `-∞` is the minus glyph followed by `"∞"`, and
parsing any of these returns `none`, because the infinity glyph is not
whitespace and is rejected by the string-to-float conversion. -/
theorem C10_inf_not_parseable (o : FloatFormatOptions) :
    parse_f64 (o.format_f64 F64.inf) = none ∧
    parse_f64 (o.format_f64 F64.neginf) = none := by
  constructor
  · show parse_f64 ⟨formatF64L o F64.inf⟩ = none
    cases h : o.always_sign
    · rw [show formatF64L o F64.inf = ['∞'] from by
        simp [formatF64L, F64.lt0, F64.isPosInf, h]]
      decide
    · rw [show formatF64L o F64.inf = ['+', '∞'] from by
        simp [formatF64L, F64.lt0, F64.isPosInf, h]]
      decide
  · show parse_f64 ⟨formatF64L o F64.neginf⟩ = none
    rw [show formatF64L o F64.neginf = [MINUS, '∞'] from by
      simp [formatF64L, F64.lt0, F64.neg, F64.isPosInf]]
    decide

/-! ### Shape of the output at value zero -/

theorem sciTest_zero (p : ℕ) : sciTest p (F64.val 0 1) = false := by
  simp only [sciTest, decide_eq_false_iff_not]
  have := pow_pos (show (0:ℤ) < 10 by norm_num) p
  omega

theorem numericBody_zero_chars (o : FloatFormatOptions) :
    ∀ c ∈ numericBody o (F64.val 0 1), c = '0' ∨ c = '.' ∨ c = THIN_SPACE := by
  simp only [numericBody]
  rw [sciTest_zero o.precision]
  simp only [Bool.false_eq_true, if_false]
  generalize (match o.num_decimals with
    | some nd => min nd (o.precision - ceilLog10Clamped (F64.val 0 1))
    | none => o.precision - ceilLog10Clamped (F64.val 0 1)) = nd
  rw [show fixedRender (F64.val 0 1) nd = fixedRenderNonneg 0 1 nd from by
    simp [fixedRender]]
  rw [fixedRenderNonneg_zero nd]
  rcases Nat.eq_zero_or_pos nd with h0 | h1
  · subst h0
    rw [if_pos rfl]
    have hcont : (['0'] : List Char).contains '.' = false := by decide
    have hstrip : (if o.strip_trailing_zeros = true then stripTrailing ['0']
        else ['0']) = ['0'] := by
      cases o.strip_trailing_zeros <;> simp [stripTrailing_no_dot _ hcont]
    rw [hstrip]
    rw [show splitDot ['0'] = (['0'], none) from splitDot_no_dot _ (by decide)]
    show ∀ c ∈ addThousandsL ['0'], c = '0' ∨ c = '.' ∨ c = THIN_SPACE
    rw [addThousandsL_short _ (by decide)]
    intro c hc
    simp at hc
    exact Or.inl hc
  · rw [if_neg (show ¬ nd = 0 by omega), padZeros_zero h1]
    cases hs : o.strip_trailing_zeros
    · simp only [Bool.false_eq_true, if_false]
      rw [show ('0' :: '.' :: List.replicate nd '0')
          = ['0'] ++ '.' :: List.replicate nd '0' from rfl]
      rw [splitDot_dot ['0'] (List.replicate nd '0') (by decide)]
      show ∀ c ∈ (if (List.replicate nd '0').length <
          o.min_decimals_for_thousands_separators then
          addThousandsL ['0'] ++ '.' :: List.replicate nd '0'
        else addThousandsL ['0'] ++
          '.' :: (addThousandsL (List.replicate nd '0').reverse).reverse), _
      rw [addThousandsL_short ['0'] (by decide)]
      intro c hc
      by_cases hb : (List.replicate nd '0').length < o.min_decimals_for_thousands_separators
      · rw [if_pos hb] at hc
        simp only [List.cons_append, List.nil_append, List.mem_cons] at hc
        rcases hc with h | h | h
        · exact Or.inl h
        · exact Or.inr (Or.inl h)
        · exact Or.inl (by simpa using List.eq_of_mem_replicate h)
      · rw [if_neg hb] at hc
        simp only [List.cons_append, List.nil_append, List.mem_cons] at hc
        rcases hc with h | h | h
        · exact Or.inl h
        · exact Or.inr (Or.inl h)
        · rw [List.mem_reverse] at h
          rcases addThousandsL_mem _ h with h' | h'
          · rw [List.mem_reverse] at h'
            exact Or.inl (by simpa using List.eq_of_mem_replicate h')
          · exact Or.inr (Or.inr h')
    · have hcont : ('0' :: '.' :: List.replicate nd '0').contains '.' = true :=
        contains_of_mem (by simp)
      have hstrip : stripTrailing ('0' :: '.' :: List.replicate nd '0') = ['0'] := by
        unfold stripTrailing
        rw [hcont, if_pos rfl]
        have hrev : ('0' :: '.' :: List.replicate nd '0').reverse
            = List.replicate nd '0' ++ ['.', '0'] := by
          simp [List.reverse_cons, List.reverse_replicate, List.append_assoc]
        rw [hrev, dropWhile_replicate_append nd '0' _ (by decide)]
        rw [show List.dropWhile (fun c => c == '0') ['.', '0'] = ['.', '0'] from rfl]
        rfl
      rw [if_pos rfl, hstrip]
      rw [show splitDot ['0'] = (['0'], none) from splitDot_no_dot _ (by decide)]
      show ∀ c ∈ addThousandsL ['0'], c = '0' ∨ c = '.' ∨ c = THIN_SPACE
      rw [addThousandsL_short _ (by decide)]
      intro c hc
      simp at hc
      exact Or.inl hc

/-! ### Claim C9 -/

/-- C9: `format` is well-defined at zero: the clamped magnitude of zero is
`0` (the `-∞` produced by `log10(0)` is clamped before use), the scientific
branch test is false for every precision, `max_decimals_float` equals the
full precision budget, and the formatted zero consists only of digits, a
decimal point, grouping separators, and an optional `'+'` sign — a
fixed-point string, never scientific notation, and (being a total
function) never a panic. -/
theorem C9_zero_guard (o : FloatFormatOptions) :
    ceilLog10Clamped (F64.val 0 1) = 0 ∧
    sciTest o.precision (F64.val 0 1) = false ∧
    o.precision - ceilLog10Clamped (F64.val 0 1) = o.precision ∧
    (o.format_f64 (F64.val 0 1)).data.all
      (fun c => isDigitC c || c == '.' || c == THIN_SPACE || c == '+') = true := by
  have hsci : sciTest o.precision (F64.val 0 1) = false := by
    simp only [sciTest, decide_eq_false_iff_not]
    have := pow_pos (show (0:ℤ) < 10 by norm_num) o.precision
    omega
  refine ⟨rfl, hsci, rfl, ?_⟩
  have hL : formatF64L o (F64.val 0 1) =
      (if o.always_sign then ['+'] else []) ++ numericBody o (F64.val 0 1) := by
    cases h : o.always_sign <;>
      simp [formatF64L, F64.lt0, F64.isPosInf, h]
  show (formatF64L o (F64.val 0 1)).all _ = true
  rw [hL]
  rw [List.all_eq_true]
  intro c hc
  simp only [List.mem_append] at hc
  rcases hc with hc | hc
  · have : c = '+' := by
      cases h : o.always_sign
      · rw [h] at hc; simp at hc
      · rw [h] at hc; simpa using hc
    subst this; decide
  · rcases numericBody_zero_chars o c hc with h | h | h <;> subst h <;> decide

/-! ### Acceptance of rendered numbers by the platform conversion -/

theorem takeSign_digit_head {c : Char} (r : List Char) (h : isDigitC c = true) :
    takeSign (c :: r) = (false, c :: r) := by
  show (if c = '-' then ((true : Bool), r)
    else if c = '+' then ((false : Bool), r) else ((false : Bool), c :: r)) = (false, c :: r)
  rw [if_neg (digit_ne_hyphen h), if_neg (digit_ne_plus h)]

theorem takeSign_plus (r : List Char) : takeSign ('+' :: r) = (false, r) := by
  show (if '+' = '-' then ((true : Bool), r)
    else if '+' = '+' then ((false : Bool), r) else ((false : Bool), '+' :: r)) = (false, r)
  rw [if_neg (by decide), if_pos rfl]

theorem takeSign_hyphen (r : List Char) : takeSign ('-' :: r) = (true, r) := by
  show (if '-' = '-' then ((true : Bool), r)
    else if '-' = '+' then ((false : Bool), r) else ((false : Bool), '-' :: r)) = (true, r)
  rw [if_pos rfl]

theorem map_lower_head_digit {c : Char} (t : List Char) (h : isDigitC c = true) :
    ((c :: t).map asciiLower).head? = some c := by
  simp [asciiLower_digit h]

theorem map_lower_ne_infs {c : Char} (t : List Char) (h : isDigitC c = true) :
    ¬((c :: t).map asciiLower = "inf".data ∨ (c :: t).map asciiLower = "infinity".data) := by
  rintro (hEq | hEq) <;>
  · have hh := congrArg List.head? hEq
    rw [map_lower_head_digit t h] at hh
    have hc : c = 'i' := by simpa using hh
    subst hc
    exact absurd h (by decide)

theorem map_lower_ne_nan {c : Char} (t : List Char) (h : isDigitC c = true) :
    (c :: t).map asciiLower ≠ "nan".data := by
  intro hEq
  have hh := congrArg List.head? hEq
  rw [map_lower_head_digit t h] at hh
  have hc : c = 'n' := by simpa using hh
  subst hc
  exact absurd h (by decide)

theorem rustFromStrAux_digits (neg : Bool) (ip : List Char) (hip : ip ≠ [])
    (hd : ∀ c ∈ ip, isDigitC c = true) : (rustFromStrAux neg ip).isSome = true := by
  obtain ⟨c, t, hct⟩ := List.exists_cons_of_ne_nil hip
  subst hct
  simp only [rustFromStrAux]
  rw [if_neg (map_lower_ne_infs t (hd c (by simp)))]
  rw [if_neg (map_lower_ne_nan t (hd c (by simp)))]
  rw [takeWhile_all (c :: t)
    (fun x hx => decide_eq_true ⟨digit_ne_e (hd x hx), digit_ne_E (hd x hx)⟩)]
  rw [takeWhile_all (c :: t) (fun x hx => decide_eq_true (digit_ne_dot (hd x hx)))]
  rw [if_pos rfl]
  have hall : (c :: t).all isDigitC = true := List.all_eq_true.mpr hd
  rw [if_neg (by simp [hall])]
  rw [if_neg (by simp)]
  rw [if_neg (by simp)]
  rw [if_neg (lt_irrefl (c :: t).length)]
  dsimp only
  repeat' split
  all_goals rfl

theorem rustFromStrAux_digits_dot (neg : Bool) (ip fp : List Char) (hip : ip ≠ [])
    (hd : ∀ c ∈ ip, isDigitC c = true) (hf : ∀ c ∈ fp, isDigitC c = true) :
    (rustFromStrAux neg (ip ++ '.' :: fp)).isSome = true := by
  obtain ⟨c, t, hct⟩ := List.exists_cons_of_ne_nil hip
  subst hct
  have hch : isDigitC c = true := hd c (by simp)
  have hmem : ∀ x ∈ (c :: t) ++ '.' :: fp, x ≠ 'e' ∧ x ≠ 'E' := by
    intro x hx
    rcases List.mem_append.mp hx with hx | hx
    · exact ⟨digit_ne_e (hd x hx), digit_ne_E (hd x hx)⟩
    · rcases List.mem_cons.mp hx with hx | hx
      · subst hx; exact ⟨by decide, by decide⟩
      · exact ⟨digit_ne_e (hf x hx), digit_ne_E (hf x hx)⟩
  simp only [rustFromStrAux]
  rw [show ((c :: t) ++ '.' :: fp) = c :: (t ++ '.' :: fp) from rfl]
  rw [if_neg (map_lower_ne_infs (t ++ '.' :: fp) hch)]
  rw [if_neg (map_lower_ne_nan (t ++ '.' :: fp) hch)]
  rw [show (c :: (t ++ '.' :: fp)) = ((c :: t) ++ '.' :: fp) from rfl]
  rw [takeWhile_all ((c :: t) ++ '.' :: fp) (fun x hx => decide_eq_true (hmem x hx))]
  rw [takeWhile_append_stop (c :: t) fp '.'
    (fun x hx => decide_eq_true (digit_ne_dot (hd x hx))) (by simp)]
  rw [if_neg (show ¬(c :: t).length = ((c :: t) ++ '.' :: fp).length from by simp)]
  rw [drop_append_cons]
  have hall : (c :: t).all isDigitC = true := List.all_eq_true.mpr hd
  have hallf : fp.all isDigitC = true := List.all_eq_true.mpr hf
  rw [if_neg (by simp [hall])]
  rw [if_neg (by simp [hallf])]
  rw [if_neg (by simp)]
  rw [if_neg (lt_irrefl ((c :: t) ++ '.' :: fp).length)]
  dsimp only
  repeat' split
  all_goals rfl

theorem rustFromStrAux_digits_exp (neg : Bool) (ip ed : List Char) (hip : ip ≠ [])
    (hed : ed ≠ []) (hd : ∀ c ∈ ip, isDigitC c = true)
    (he : ∀ c ∈ ed, isDigitC c = true) :
    (rustFromStrAux neg (ip ++ 'e' :: ed)).isSome = true := by
  obtain ⟨c, t, hct⟩ := List.exists_cons_of_ne_nil hip
  subst hct
  obtain ⟨c2, t2, hct2⟩ := List.exists_cons_of_ne_nil hed
  subst hct2
  have hch : isDigitC c = true := hd c (by simp)
  simp only [rustFromStrAux]
  rw [show ((c :: t) ++ 'e' :: c2 :: t2) = c :: (t ++ 'e' :: c2 :: t2) from rfl]
  rw [if_neg (map_lower_ne_infs (t ++ 'e' :: c2 :: t2) hch)]
  rw [if_neg (map_lower_ne_nan (t ++ 'e' :: c2 :: t2) hch)]
  rw [show (c :: (t ++ 'e' :: c2 :: t2)) = ((c :: t) ++ 'e' :: c2 :: t2) from rfl]
  rw [takeWhile_append_stop (c :: t) (c2 :: t2) 'e'
    (fun x hx => decide_eq_true ⟨digit_ne_e (hd x hx), digit_ne_E (hd x hx)⟩)
    (by decide)]
  rw [drop_append_cons]
  rw [takeWhile_all (c :: t) (fun x hx => decide_eq_true (digit_ne_dot (hd x hx)))]
  rw [if_pos rfl]
  have hall : (c :: t).all isDigitC = true := List.all_eq_true.mpr hd
  rw [if_neg (by simp [hall])]
  rw [if_neg (by simp)]
  rw [if_neg (by simp)]
  rw [if_pos (show (c :: t).length < ((c :: t) ++ 'e' :: c2 :: t2).length from by simp)]
  rw [takeSign_digit_head (t2) (he c2 (by simp))]
  have halle : (c2 :: t2).all isDigitC = true := List.all_eq_true.mpr he
  rw [if_neg (by simp [halle])]
  dsimp only
  repeat' split
  all_goals rfl

theorem rustFromStrAux_dot_exp (neg : Bool) (ip fp ed : List Char) (hip : ip ≠ [])
    (hed : ed ≠ []) (hd : ∀ c ∈ ip, isDigitC c = true)
    (hf : ∀ c ∈ fp, isDigitC c = true) (he : ∀ c ∈ ed, isDigitC c = true) :
    (rustFromStrAux neg ((ip ++ '.' :: fp) ++ 'e' :: ed)).isSome = true := by
  obtain ⟨c, t, hct⟩ := List.exists_cons_of_ne_nil hip
  subst hct
  obtain ⟨c2, t2, hct2⟩ := List.exists_cons_of_ne_nil hed
  subst hct2
  have hch : isDigitC c = true := hd c (by simp)
  have hmd : ∀ x ∈ (c :: t) ++ '.' :: fp, isDigitC x = true ∨ x = '.' := by
    intro x hx
    rcases List.mem_append.mp hx with hx | hx
    · exact Or.inl (hd x hx)
    · rcases List.mem_cons.mp hx with hx | hx
      · exact Or.inr hx
      · exact Or.inl (hf x hx)
  simp only [rustFromStrAux]
  rw [show (((c :: t) ++ '.' :: fp) ++ 'e' :: c2 :: t2)
      = c :: ((t ++ '.' :: fp) ++ 'e' :: c2 :: t2) from by simp]
  rw [if_neg (map_lower_ne_infs ((t ++ '.' :: fp) ++ 'e' :: c2 :: t2) hch)]
  rw [if_neg (map_lower_ne_nan ((t ++ '.' :: fp) ++ 'e' :: c2 :: t2) hch)]
  rw [show (c :: ((t ++ '.' :: fp) ++ 'e' :: c2 :: t2))
      = (((c :: t) ++ '.' :: fp) ++ 'e' :: c2 :: t2) from by simp]
  rw [takeWhile_append_stop ((c :: t) ++ '.' :: fp) (c2 :: t2) 'e'
    (fun x hx => decide_eq_true (by
      rcases hmd x hx with h | h
      · exact ⟨digit_ne_e h, digit_ne_E h⟩
      · subst h; exact ⟨by decide, by decide⟩))
    (by decide)]
  rw [drop_append_cons]
  rw [takeWhile_append_stop (c :: t) fp '.'
    (fun x hx => decide_eq_true (digit_ne_dot (hd x hx))) (by simp)]
  rw [if_neg (show ¬(c :: t).length = ((c :: t) ++ '.' :: fp).length from by simp)]
  rw [drop_append_cons]
  have hall : (c :: t).all isDigitC = true := List.all_eq_true.mpr hd
  have hallf : fp.all isDigitC = true := List.all_eq_true.mpr hf
  rw [if_neg (by simp [hall])]
  rw [if_neg (by simp [hallf])]
  rw [if_neg (by simp)]
  rw [if_pos (show ((c :: t) ++ '.' :: fp).length
      < (((c :: t) ++ '.' :: fp) ++ 'e' :: c2 :: t2).length from by simp)]
  rw [takeSign_digit_head (t2) (he c2 (by simp))]
  have halle : (c2 :: t2).all isDigitC = true := List.all_eq_true.mpr he
  rw [if_neg (by simp [halle])]
  dsimp only
  repeat' split
  all_goals rfl

/-! ### Normalization facts -/

theorem stripNormL_append (l1 l2 : List Char) :
    stripNormL (l1 ++ l2) = stripNormL l1 ++ stripNormL l2 := by
  simp [stripNormL, List.filter_append]

theorem stripNormL_clean (l : List Char)
    (h : ∀ c ∈ l, rustIsWhitespace c = false ∧ c ≠ MINUS) : stripNormL l = l := by
  unfold stripNormL
  rw [List.filter_eq_self.mpr (fun c hc => by simp [(h c hc).1])]
  rw [List.map_congr_left (fun c hc => if_neg (h c hc).2)]
  exact List.map_id l

theorem digit_clean {c : Char} (h : isDigitC c = true) :
    rustIsWhitespace c = false ∧ c ≠ MINUS :=
  ⟨not_ws_of_digit h, digit_ne_minusGlyph h⟩

theorem stripNormL_addThousands (l : List Char) :
    stripNormL (addThousandsL l) = stripNormL l := by
  unfold stripNormL
  rw [addThousandsL_filter (by decide)]

theorem stripNormL_reverse (l : List Char) :
    stripNormL l.reverse = (stripNormL l).reverse := by
  unfold stripNormL
  rw [List.filter_reverse, List.map_reverse]

theorem stripNormL_dot_cons (l : List Char) :
    stripNormL ('.' :: l) = '.' :: stripNormL l := by
  unfold stripNormL
  rw [List.filter_cons_of_pos (by decide)]
  rw [List.map_cons]
  rw [if_neg (by decide)]

theorem stripNormL_minus_cons (l : List Char) :
    stripNormL (MINUS :: l) = '-' :: stripNormL l := by
  unfold stripNormL
  rw [List.filter_cons_of_pos (by decide)]
  rw [List.map_cons]
  rw [if_pos rfl]

/-! ### Structure of the scientific rendering -/

theorem sciRender_structure (n d P : ℕ) :
    ∃ c rest ed, sciRender n d P
        = c :: ((if P = 0 then [] else '.' :: rest) ++ 'e' :: ed) ∧
      isDigitC c = true ∧ (∀ x ∈ rest, isDigitC x = true) ∧
      ed ≠ [] ∧ (∀ x ∈ ed, isDigitC x = true) := by
  obtain ⟨m, k, heq⟩ : ∃ m k : ℕ, sciRender n d P =
      (match natStr m with
       | [] => []
       | c :: rest => c :: ((if P = 0 then [] else '.' :: rest) ++ 'e' :: natStr k)) :=
    ⟨_, _, rfl⟩
  obtain ⟨c, rest, hcr⟩ := List.exists_cons_of_ne_nil (natStr_ne_nil m)
  refine ⟨c, rest, natStr k, ?_, ?_, ?_, natStr_ne_nil k, natStr_digits k⟩
  · rw [heq, hcr]
  · exact natStr_digits m c (hcr ▸ List.mem_cons_self c rest)
  · intro x hx
    exact natStr_digits m x (hcr ▸ List.mem_cons_of_mem c hx)

theorem sciRender_parses (neg : Bool) (n d P : ℕ) :
    (rustFromStrAux neg (sciRender n d P)).isSome = true := by
  obtain ⟨c, rest, ed, heq, hc, hrest, hedn, hed⟩ := sciRender_structure n d P
  rw [heq]
  by_cases hP : P = 0
  · rw [if_pos hP]
    exact rustFromStrAux_digits_exp neg [c] ed (by simp) hedn
      (by intro x hx; rw [List.mem_singleton] at hx; subst hx; exact hc) hed
  · rw [if_neg hP]
    exact rustFromStrAux_dot_exp neg [c] rest ed (by simp) hedn
      (by intro x hx; rw [List.mem_singleton] at hx; subst hx; exact hc) hrest hed

theorem sciRender_head (n d P : ℕ) :
    ∃ c t, sciRender n d P = c :: t ∧ isDigitC c = true := by
  obtain ⟨c, rest, ed, heq, hc, -, -, -⟩ := sciRender_structure n d P
  exact ⟨c, _, heq, hc⟩

theorem sciRender_clean (n d P : ℕ) :
    ∀ x ∈ sciRender n d P, rustIsWhitespace x = false ∧ x ≠ MINUS := by
  obtain ⟨c, rest, ed, heq, hc, hrest, -, hed⟩ := sciRender_structure n d P
  rw [heq]
  intro x hx
  rcases List.mem_cons.mp hx with hx | hx
  · subst hx; exact digit_clean hc
  · rcases List.mem_append.mp hx with hx | hx
    · by_cases hP : P = 0
      · rw [if_pos hP] at hx; simp at hx
      · rw [if_neg hP] at hx
        rcases List.mem_cons.mp hx with hx | hx
        · subst hx; exact ⟨by decide, by decide⟩
        · exact digit_clean (hrest x hx)
    · rcases List.mem_cons.mp hx with hx | hx
      · subst hx; exact ⟨by decide, by decide⟩
      · exact digit_clean (hed x hx)

/-! ### Closed forms of format_f64 on finite non-negative values -/

theorem lt0_false_of_nonneg {n : ℤ} (d : ℕ) (hn : 0 ≤ n) :
    F64.lt0 (F64.val n d) = false := by
  simp only [F64.lt0, decide_eq_false_iff_not]
  omega

theorem formatF64L_sign_split (o : FloatFormatOptions) (n : ℤ) (d : ℕ) (hn : 0 ≤ n) :
    formatF64L o (F64.val n d) =
      (if o.always_sign then ['+'] else []) ++ numericBody o (F64.val n d) := by
  cases h : o.always_sign <;>
    simp [formatF64L, lt0_false_of_nonneg d hn, F64.isPosInf, h]

theorem formatF64L_fixed (o : FloatFormatOptions) (n : ℤ) (d : ℕ) (nd r : ℕ)
    (hn : 0 ≤ n)
    (hsci : sciTest o.precision (F64.val n d) = false)
    (hstrip : o.strip_trailing_zeros = false)
    (hnd : nd = effectiveDecimals o (F64.val n d))
    (hr : r = (roundHalfEvenFrac (n * 10 ^ nd) (d : ℤ)).toNat) :
    formatF64L o (F64.val n d) =
      (if o.always_sign then ['+'] else []) ++
      (if nd = 0 then addThousandsL (natStr (r / 10 ^ nd))
       else if (padZeros nd (r % 10 ^ nd)).length < o.min_decimals_for_thousands_separators
        then addThousandsL (natStr (r / 10 ^ nd)) ++ '.' :: padZeros nd (r % 10 ^ nd)
        else addThousandsL (natStr (r / 10 ^ nd)) ++ '.' ::
          (addThousandsL (padZeros nd (r % 10 ^ nd)).reverse).reverse) := by
  subst hnd hr
  rw [formatF64L_sign_split o n d hn]
  congr 1
  simp only [numericBody, hsci, Bool.false_eq_true, if_false]
  rw [show (match o.num_decimals with
      | some k => min k (o.precision - ceilLog10Clamped (F64.val n d))
      | none => o.precision - ceilLog10Clamped (F64.val n d))
      = effectiveDecimals o (F64.val n d) from rfl]
  rw [show fixedRender (F64.val n d) (effectiveDecimals o (F64.val n d))
      = fixedRenderNonneg n d (effectiveDecimals o (F64.val n d)) from by
    simp only [fixedRender]; rw [if_neg (not_lt.mpr hn)]]
  rw [hstrip]
  simp only [Bool.false_eq_true, if_false]
  rw [show fixedRenderNonneg n d (effectiveDecimals o (F64.val n d)) =
      natStr ((roundHalfEvenFrac (n * 10 ^ effectiveDecimals o (F64.val n d)) (d : ℤ)).toNat
        / 10 ^ effectiveDecimals o (F64.val n d)) ++
      (if effectiveDecimals o (F64.val n d) = 0 then []
       else '.' :: padZeros (effectiveDecimals o (F64.val n d))
        ((roundHalfEvenFrac (n * 10 ^ effectiveDecimals o (F64.val n d)) (d : ℤ)).toNat
          % 10 ^ effectiveDecimals o (F64.val n d))) from rfl]
  by_cases h0 : effectiveDecimals o (F64.val n d) = 0
  · rw [if_pos h0, if_pos h0, List.append_nil]
    rw [splitDot_no_dot _ (fun c hc => digit_ne_dot (natStr_digits _ c hc))]
  · rw [if_neg h0, if_neg h0]
    rw [splitDot_dot _ _ (fun c hc => digit_ne_dot (natStr_digits _ c hc))]

theorem formatF64L_sci (o : FloatFormatOptions) (n : ℤ) (d : ℕ)
    (hsci : sciTest o.precision (F64.val n d) = true) :
    formatF64L o (F64.val n d) =
      (if o.always_sign then ['+'] else []) ++ sciRender n.toNat d (o.precision - 1) := by
  have hn : 0 ≤ n := by
    simp only [sciTest, decide_eq_true_eq] at hsci
    have h10 := pow_pos (show (0:ℤ) < 10 by norm_num) o.precision
    have hd : (0:ℤ) ≤ (d : ℤ) := Int.natCast_nonneg d
    nlinarith
  rw [formatF64L_sign_split o n d hn]
  congr 1
  simp only [numericBody, hsci, if_true]

/-! ### Claim C3 -/

theorem addThousandsL_countP {p : Char → Bool} (hp : p THIN_SPACE = false)
    (l : List Char) : (addThousandsL l).countP p = l.countP p := by
  rw [List.countP_eq_length_filter, List.countP_eq_length_filter, addThousandsL_filter hp]

/-- C3 counterexample: the formatter core has no 16-decimal cap.  The
options with precision 18, no decimal override, no stripping and grouping
threshold 19 render the value 1 with 18 fractional digits, refuting the
claim that no value is rendered with more than 16 fractional digits when
the precision exceeds 17 and no override is set. -/
theorem C3_counterexample :
    17 < (⟨false, 18, none, false, 19⟩ : FloatFormatOptions).precision ∧
    (⟨false, 18, none, false, 19⟩ : FloatFormatOptions).num_decimals = none ∧
    16 < fracDigitCount
      ((⟨false, 18, none, false, 19⟩ : FloatFormatOptions).format_f64 (F64.val 1 1)) :=
  ⟨by decide, rfl, by decide⟩

/-- C3 (amended): in the formatter core, for every non-negative finite
value and options such that the fixed-point branch is taken
(`max_decimals_float ≥ 0`) and trailing-zero stripping is disabled, the
number of fractional digits rendered is exactly
`floor(max_decimals_float)` — with NO further clamp to 16 — replaced by
`min(num_decimals_override, that maximum)` when an override is set; in
particular options with precision greater than 17 and no override can
render more than 16 fractional digits (precision 18 renders the value 1
with 18 of them). -/
theorem C3_decimals_amended (o : FloatFormatOptions) (n : ℤ) (d : ℕ)
    (hstrip : o.strip_trailing_zeros = false) (hn : 0 ≤ n)
    (hsci : sciTest o.precision (F64.val n d) = false) :
    fracDigitCount (o.format_f64 (F64.val n d)) = effectiveDecimals o (F64.val n d) ∧
    fracDigitCount
      ((⟨false, 18, none, false, 19⟩ : FloatFormatOptions).format_f64 (F64.val 1 1)) = 18 := by
  refine ⟨?_, by decide⟩
  have hdata : (o.format_f64 (F64.val n d)).data = formatF64L o (F64.val n d) := rfl
  unfold fracDigitCount
  rw [hdata]
  rw [formatF64L_fixed o n d (effectiveDecimals o (F64.val n d))
    ((roundHalfEvenFrac (n * 10 ^ effectiveDecimals o (F64.val n d)) (d : ℤ)).toNat)
    hn hsci hstrip rfl rfl]
  set nd := effectiveDecimals o (F64.val n d) with hnd
  set r := (roundHalfEvenFrac (n * 10 ^ nd) (d : ℤ)).toNat with hrv
  have hsign : ∀ c ∈ (if o.always_sign then ['+'] else []), c ≠ '.' := by
    intro c hc
    cases h : o.always_sign
    · rw [h] at hc; simp at hc
    · rw [h] at hc
      have : c = '+' := by simpa using hc
      subst this; decide
  have hipgrp : ∀ c ∈ addThousandsL (natStr (r / 10 ^ nd)), c ≠ '.' := by
    intro c hc
    rcases addThousandsL_mem _ hc with h | h
    · exact digit_ne_dot (natStr_digits _ c h)
    · subst h; decide
  by_cases h0 : nd = 0
  · rw [if_pos h0]
    rw [splitDot_no_dot _ (by
      intro c hc
      rcases List.mem_append.mp hc with h | h
      · exact hsign c h
      · exact hipgrp c h)]
    rw [h0]
    simp
  · rw [if_neg h0]
    have hfpdig : ∀ c ∈ padZeros nd (r % 10 ^ nd), isDigitC c = true :=
      padZeros_digits nd (r % 10 ^ nd)
    have hfplen : (padZeros nd (r % 10 ^ nd)).length = nd :=
      padZeros_length (natStr_length_le (by omega)
        (Nat.mod_lt _ (Nat.pos_pow_of_pos nd (by omega))))
    by_cases hb : (padZeros nd (r % 10 ^ nd)).length < o.min_decimals_for_thousands_separators
    · rw [if_pos hb]
      rw [← List.append_assoc]
      rw [splitDot_dot _ _ (by
        intro c hc
        rcases List.mem_append.mp hc with h | h
        · exact hsign c h
        · exact hipgrp c h)]
      simp only [Option.getD_some]
      rw [List.countP_eq_length.mpr (fun c hc => hfpdig c hc)]
      exact hfplen
    · rw [if_neg hb]
      rw [← List.append_assoc]
      rw [splitDot_dot _ _ (by
        intro c hc
        rcases List.mem_append.mp hc with h | h
        · exact hsign c h
        · exact hipgrp c h)]
      simp only [Option.getD_some]
      rw [List.countP_reverse]
      rw [addThousandsL_countP (by decide)]
      rw [List.countP_reverse]
      rw [List.countP_eq_length.mpr (fun c hc => hfpdig c hc)]
      exact hfplen

/-- Witness for C3 (amended) at a concrete value and options. -/
theorem C3_decimals_amended_witness :
    fracDigitCount ((⟨false, 15, some 3, false, 6⟩ : FloatFormatOptions).format_f64
      (F64.val 5 2)) = effectiveDecimals (⟨false, 15, some 3, false, 6⟩ : FloatFormatOptions)
      (F64.val 5 2) :=
  (C3_decimals_amended (⟨false, 15, some 3, false, 6⟩ : FloatFormatOptions) 5 2
    rfl (by decide) (by decide)).1

/-! ### Claim C7 -/

theorem stripNormL_plus_cons (l : List Char) :
    stripNormL ('+' :: l) = '+' :: stripNormL l := by
  unfold stripNormL
  rw [List.filter_cons_of_pos (by decide)]
  rw [List.map_cons]
  rw [if_neg (by decide)]

/-- C7 counterexample: with the 64-bit preset the value `10^16` takes the
scientific-notation fallback, whose output `"1.00000000000000e16"` the
module's own parser reads back successfully — refuting the claim that
`parse` returns no value on every scientific-notation output. -/
theorem C7_counterexample :
    takesSciFallback DEFAULT_f64 (F64.val (10 ^ 16) 1) = true ∧
    parse_f64 (DEFAULT_f64.format_f64 (F64.val (10 ^ 16) 1)) = some (F64.val (10 ^ 16) 1) :=
  ⟨by decide, by decide⟩

/-- C7 (amended): the scientific-notation output of the formatter IS
understood by the module's parser: for every value and options for which
`format` takes the scientific-notation fallback, applying `parse` to the
formatted output returns some value (the mantissa-times-power-of-ten the
text denotes), because the output `d.ddd e exp` — after normalizing the
possible typographic minus — fits the platform float grammar. -/
theorem C7_sci_amended (o : FloatFormatOptions) (v : F64)
    (h : takesSciFallback o v = true) :
    ∃ y, parse_f64 (o.format_f64 v) = some y := by
  match v with
  | .nan => exact absurd h (by simp [takesSciFallback])
  | .inf => exact absurd h (by simp [takesSciFallback, F64.lt0, F64.isPosInf])
  | .neginf => exact absurd h (by simp [takesSciFallback, F64.lt0, F64.neg, F64.isPosInf])
  | .negZero => exact absurd h (by simp [takesSciFallback, F64.lt0, F64.isPosInf, sciTest])
  | .val n d =>
    by_cases hneg : n < 0
    · have hlt : F64.lt0 (F64.val n d) = true := by
        simp only [F64.lt0, decide_eq_true_eq]; omega
      have hw : takesSciFallback o (F64.val n d)
          = sciTest o.precision (F64.val (-n) d) := by
        simp [takesSciFallback, hlt, F64.neg, F64.isPosInf]
      rw [hw] at h
      have hfmt : formatF64L o (F64.val n d)
          = MINUS :: sciRender (-n).toNat d (o.precision - 1) := by
        have hbody : numericBody o (F64.val (-n) d)
            = sciRender (-n).toNat d (o.precision - 1) := by
          simp only [numericBody, h, if_true]
        simp [formatF64L, hlt, F64.neg, F64.isPosInf, hbody]
      show ∃ y, rustFromStr (stripNormL (formatF64L o (F64.val n d))) = some y
      rw [hfmt, stripNormL_minus_cons, stripNormL_clean _ (sciRender_clean _ _ _)]
      rw [show rustFromStr ('-' :: sciRender (-n).toNat d (o.precision - 1))
          = rustFromStrAux true (sciRender (-n).toNat d (o.precision - 1)) from by
        rw [rustFromStr, takeSign_hyphen]]
      exact Option.isSome_iff_exists.mp (sciRender_parses true _ _ _)
    · have hn : 0 ≤ n := not_lt.mp hneg
      have hw : takesSciFallback o (F64.val n d) = sciTest o.precision (F64.val n d) := by
        simp [takesSciFallback, lt0_false_of_nonneg d hn, F64.isPosInf]
      rw [hw] at h
      show ∃ y, rustFromStr (stripNormL (formatF64L o (F64.val n d))) = some y
      rw [formatF64L_sci o n d h]
      obtain ⟨c, t, hct, hc⟩ := sciRender_head n.toNat d (o.precision - 1)
      cases hsig : o.always_sign
      · rw [if_neg (by simp [hsig]), List.nil_append,
          stripNormL_clean _ (sciRender_clean _ _ _), hct]
        rw [show rustFromStr (c :: t) = rustFromStrAux false (c :: t) from by
          rw [rustFromStr, takeSign_digit_head t hc]]
        rw [← hct]
        exact Option.isSome_iff_exists.mp (sciRender_parses false _ _ _)
      · rw [if_pos (by simp [hsig])]
        rw [show (['+'] ++ sciRender n.toNat d (o.precision - 1))
            = '+' :: sciRender n.toNat d (o.precision - 1) from rfl]
        rw [stripNormL_plus_cons, stripNormL_clean _ (sciRender_clean _ _ _)]
        rw [show rustFromStr ('+' :: sciRender n.toNat d (o.precision - 1))
            = rustFromStrAux false (sciRender n.toNat d (o.precision - 1)) from by
          rw [rustFromStr, takeSign_plus]]
        exact Option.isSome_iff_exists.mp (sciRender_parses false _ _ _)

/-- Witness for C7 (amended) at the 64-bit preset and the value `10^16`. -/
theorem C7_sci_amended_witness :
    ∃ y, parse_f64 (DEFAULT_f64.format_f64 (F64.val (10 ^ 16) 1)) = some y :=
  C7_sci_amended DEFAULT_f64 (F64.val (10 ^ 16) 1) (by decide)

/-! ### Claim C1 -/

theorem rustFromStr_digits_isSome (ip : List Char) (hip : ip ≠ [])
    (hd : ∀ c ∈ ip, isDigitC c = true) : (rustFromStr ip).isSome = true := by
  obtain ⟨c, t, hct⟩ := List.exists_cons_of_ne_nil hip
  subst hct
  rw [show rustFromStr (c :: t) = rustFromStrAux false (c :: t) from by
    rw [rustFromStr, takeSign_digit_head t (hd c (by simp))]]
  exact rustFromStrAux_digits false (c :: t) (by simp) hd

theorem rustFromStr_digits_dot_isSome (ip fp : List Char) (hip : ip ≠ [])
    (hd : ∀ c ∈ ip, isDigitC c = true) (hf : ∀ c ∈ fp, isDigitC c = true) :
    (rustFromStr (ip ++ '.' :: fp)).isSome = true := by
  obtain ⟨c, t, hct⟩ := List.exists_cons_of_ne_nil hip
  subst hct
  rw [show rustFromStr ((c :: t) ++ '.' :: fp)
      = rustFromStrAux false ((c :: t) ++ '.' :: fp) from by
    rw [rustFromStr, show ((c :: t) ++ '.' :: fp) = c :: (t ++ '.' :: fp) from rfl,
      takeSign_digit_head _ (hd c (by simp))]]
  exact rustFromStrAux_digits_dot false (c :: t) fp (by simp) hd hf

/-- Parsing always succeeds on the output of the round-trip search's inner
formatter (64-bit preset, explicit decimals, no stripping) for any
non-negative finite value, whether the fixed-point or the scientific branch
is taken. -/
theorem parse_format_with_decimals_isSome (n : ℤ) (d : ℕ) (decs : ℕ) (hn : 0 ≤ n) :
    (parse_f64 (format_with_decimals (F64.val n d) decs)).isSome = true := by
  show (rustFromStr (stripNormL (formatF64L
    ((DEFAULT_f64.with_decimals decs).with_strip_trailing_zeros false)
    (F64.val n d)))).isSome = true
  by_cases hsci : sciTest
      ((DEFAULT_f64.with_decimals decs).with_strip_trailing_zeros false).precision
      (F64.val n d) = true
  · rw [formatF64L_sci _ n d hsci]
    rw [show (if ((DEFAULT_f64.with_decimals decs).with_strip_trailing_zeros
        false).always_sign then ['+'] else []) = ([] : List Char) from rfl]
    rw [List.nil_append, stripNormL_clean _ (sciRender_clean _ _ _)]
    obtain ⟨c, t, hct, hc⟩ := sciRender_head n.toNat d
      (((DEFAULT_f64.with_decimals decs).with_strip_trailing_zeros false).precision - 1)
    rw [hct]
    rw [show rustFromStr (c :: t) = rustFromStrAux false (c :: t) from by
      rw [rustFromStr, takeSign_digit_head t hc]]
    rw [← hct]
    exact sciRender_parses false _ _ _
  · have hsci' : sciTest
        ((DEFAULT_f64.with_decimals decs).with_strip_trailing_zeros false).precision
        (F64.val n d) = false := by simpa using hsci
    rw [formatF64L_fixed _ n d _ _ hn hsci' rfl rfl rfl]
    rw [show (if ((DEFAULT_f64.with_decimals decs).with_strip_trailing_zeros
        false).always_sign then ['+'] else []) = ([] : List Char) from rfl]
    rw [List.nil_append]
    set o' := (DEFAULT_f64.with_decimals decs).with_strip_trailing_zeros false with ho'
    set nd := effectiveDecimals o' (F64.val n d) with hnd
    set r := (roundHalfEvenFrac (n * 10 ^ nd) (d : ℤ)).toNat with hr
    have hipd : ∀ c ∈ natStr (r / 10 ^ nd), isDigitC c = true := natStr_digits _
    have hfpd : ∀ c ∈ padZeros nd (r % 10 ^ nd), isDigitC c = true := padZeros_digits _ _
    by_cases h0 : nd = 0
    · rw [if_pos h0, stripNormL_addThousands,
        stripNormL_clean _ (fun c hc => digit_clean (hipd c hc))]
      exact rustFromStr_digits_isSome _ (natStr_ne_nil _) hipd
    · rw [if_neg h0]
      by_cases hb : (padZeros nd (r % 10 ^ nd)).length
          < o'.min_decimals_for_thousands_separators
      · rw [if_pos hb, stripNormL_append, stripNormL_addThousands,
          stripNormL_clean _ (fun c hc => digit_clean (hipd c hc)),
          stripNormL_dot_cons,
          stripNormL_clean _ (fun c hc => digit_clean (hfpd c hc))]
        exact rustFromStr_digits_dot_isSome _ _ (natStr_ne_nil _) hipd hfpd
      · rw [if_neg hb, stripNormL_append, stripNormL_addThousands,
          stripNormL_clean _ (fun c hc => digit_clean (hipd c hc)),
          stripNormL_dot_cons]
        rw [stripNormL_reverse, stripNormL_addThousands, stripNormL_reverse,
          List.reverse_reverse,
          stripNormL_clean _ (fun c hc => digit_clean (hfpd c hc))]
        exact rustFromStr_digits_dot_isSome _ _ (natStr_ne_nil _) hipd hfpd

/-- Every text the ascending scan returns was produced by the inner
formatter at some decimal count. -/
theorem scanRT_mem (v : F64) : ∀ (fuel d : ℕ) (text : String),
    scanRT v fuel d = some text → ∃ dd, text = format_with_decimals v dd := by
  intro fuel
  induction fuel with
  | zero => intro d text h; simp [scanRT] at h
  | succ f ih =>
    intro d text h
    simp only [scanRT] at h
    cases hp : parse_f64 (format_with_decimals v d) with
    | none =>
      rw [hp] at h
      exact ih (d + 1) text h
    | some parsed =>
      rw [hp] at h
      dsimp only at h
      by_cases ha : almostEqualTol parsed v = true
      · rw [if_pos ha] at h
        exact ⟨d, (Option.some_injective _ h).symm⟩
      · rw [if_neg ha] at h
        exact ih (d + 1) text h

/-- The round-trip search always returns an output of the inner formatter. -/
theorem formatWithDecimalsInRange_mem (v : F64) :
    ∃ dd, format_with_decimals_in_range v 0 10 = format_with_decimals v dd := by
  unfold format_with_decimals_in_range
  dsimp only
  rw [if_pos (by norm_num)]
  cases hscan : scanRT v (min 10 16 - min 0 (min 10 16)) (min 0 (min 10 16)) with
  | none => exact ⟨min 10 16, rfl⟩
  | some text =>
    obtain ⟨dd, hdd⟩ := scanRT_mem v _ _ text hscan
    exact ⟨dd, hdd⟩

set_option maxRecDepth 100000

/-- C1 counterexample: at the finite non-negative value
`x = 77477571 / 2^45 ≈ 2.202045e-6`, the round-trip search over the range
`0..=10` exhausts (eleven decimal places would be needed), the returned
10-decimal fallback reparses to `22020 / 10^10`, and that value is NOT
within the fixed tolerance `16 * f32::EPSILON` of `x` at 32-bit width (the
relative gap is about `2e-5`) — refuting the claimed universal round-trip
property. -/
theorem C1_counterexample :
    parse_f64 (format_with_decimals_in_range (F64.val 77477571 (2 ^ 45)) 0 10)
      = some (F64.val 22020 (10 ^ 10)) ∧
    almostEqualTol (F64.val 22020 (10 ^ 10)) (F64.val 77477571 (2 ^ 45)) = false :=
  ⟨by decide, by decide⟩

/-- C1 (amended): for every finite non-negative value `x`,
`parse(format_with_decimals_in_range(x, 0..=10))` returns SOME value — the
formatted text, fixed-point or scientific, always reparses — but the
reparsed value need not be within the fixed tolerance of `x`: values whose
32-bit-relative description requires more than ten decimal places (such as
`77477571 / 2^45`) fail the tolerance check at every scanned decimal count
and at the fallback. -/
theorem C1_roundtrip_amended (n : ℤ) (d : ℕ) (hn : 0 ≤ n) :
    ∃ y, parse_f64 (format_with_decimals_in_range (F64.val n d) 0 10) = some y := by
  obtain ⟨dd, hdd⟩ := formatWithDecimalsInRange_mem (F64.val n d)
  rw [hdd]
  exact Option.isSome_iff_exists.mp (parse_format_with_decimals_isSome n d dd hn)

/-- Witness for C1 (amended) at the value one third. -/
theorem C1_roundtrip_amended_witness :
    ∃ y, parse_f64 (format_with_decimals_in_range (F64.val 1 3) 0 10) = some y :=
  C1_roundtrip_amended 1 3 (by decide)

/-! ### Claim C2 -/

theorem scanRT_eq_filterMap (v : F64) : ∀ (fuel d : ℕ),
    scanRT v fuel d = ((List.range' d fuel).filterMap (rtCandidate v)).head? := by
  intro fuel
  induction fuel with
  | zero => intro d; simp [scanRT]
  | succ f ih =>
    intro d
    rw [List.range'_succ]
    simp only [List.filterMap_cons, scanRT]
    cases hp : parse_f64 (format_with_decimals v d) with
    | none =>
      rw [show rtCandidate v d = none from by simp [rtCandidate, hp]]
      exact ih (d + 1)
    | some parsed =>
      dsimp only
      by_cases ha : almostEqualTol parsed v = true
      · rw [if_pos ha]
        rw [show rtCandidate v d = some (format_with_decimals v d) from by
          simp [rtCandidate, hp, ha]]
        rfl
      · have ha' : almostEqualTol parsed v = false := by simpa using ha
        rw [if_neg ha]
        rw [show rtCandidate v d = none from by simp [rtCandidate, hp, ha']]
        exact ih (d + 1)

/-- C2: `format_with_decimals_in_range` first clamps `max_decimals` to at
most 16 and `min_decimals` to at most the clamped maximum; then, when
`min_decimals < max_decimals`, it scans decimal counts ascending from
`min_decimals` up to but excluding `max_decimals`, formatting with the
64-bit preset with trailing-zero stripping disabled, reparsing, and
returning the first (fewest-decimals) candidate within the fixed tolerance
of `16` times the 32-bit machine epsilon compared at 32-bit width; when the
scan exhausts, or `min_decimals = max_decimals`, it falls back to
formatting at the clamped `max_decimals` — i.e. it equals the search
written out exactly as the spec describes it. -/
theorem C2_roundtrip_algorithm (v : F64) (minDec maxDec : ℕ)
    (h1 : minDec ≤ maxDec) (h2 : maxDec < 100) :
    format_with_decimals_in_range v minDec maxDec = roundTripSearchSpec v minDec maxDec := by
  unfold format_with_decimals_in_range roundTripSearchSpec
  dsimp only
  by_cases hlt : min minDec (min maxDec 16) < min maxDec 16
  · rw [if_pos hlt, scanRT_eq_filterMap]
  · rw [if_neg hlt]
    rw [show min maxDec 16 - min minDec (min maxDec 16) = 0 from by omega]
    rfl

/-- Witness for C2 at a concrete value and range. -/
theorem C2_roundtrip_algorithm_witness :
    (0 ≤ 3 ∧ 3 < 100) ∧
    format_with_decimals_in_range (F64.val 1 2) 0 3 = roundTripSearchSpec (F64.val 1 2) 0 3 :=
  ⟨⟨by decide, by decide⟩, C2_roundtrip_algorithm (F64.val 1 2) 0 3 (by decide) (by decide)⟩

/-! ### Claim C6 -/

/-- C6: for every non-empty string of digit characters,
`add_thousands_separators` inserts the thin-space separator every three
characters counted from the right end (the output is exactly the
right-chunking of the input joined by single separators), never places a
separator before the first digit (the first character is preserved, hence
not a separator), so an input of length `n` gains exactly `⌈n/3⌉ - 1`
separators (in count and in total length) and inputs of length at most 3
are returned unchanged; in particular `"1234567"` becomes
`"1"` + sep + `"234"` + sep + `"567"`. -/
theorem C6_grouping (s : String) (h1 : s.data ≠ [])
    (h2 : ∀ c ∈ s.data, isDigitC c = true) :
    (add_thousands_separators s).data = joinSep (rightChunks3 s.data) ∧
    (s.data.length ≤ 3 → add_thousands_separators s = s) ∧
    (add_thousands_separators s).data.count THIN_SPACE = (s.data.length + 2) / 3 - 1 ∧
    (add_thousands_separators s).data.length
      = s.data.length + ((s.data.length + 2) / 3 - 1) ∧
    (add_thousands_separators s).data.head? = s.data.head? ∧
    (add_thousands_separators s).data.head? ≠ some THIN_SPACE ∧
    add_thousands_separators ⟨['1', '2', '3', '4', '5', '6', '7']⟩ =
      ⟨['1', THIN_SPACE, '2', '3', '4', THIN_SPACE, '5', '6', '7']⟩ := by
  have hL : (add_thousands_separators s).data = addThousandsL s.data := rfl
  have hsep0 : s.data.count THIN_SPACE = 0 :=
    List.count_eq_zero.mpr (fun hmem => absurd (h2 _ hmem) (by decide))
  refine ⟨hL.trans (addThousandsL_eq_joinSep s.data), ?_, ?_, ?_, ?_, ?_, by decide⟩
  · intro hlen
    show (⟨addThousandsL s.data⟩ : String) = s
    rw [addThousandsL_short s.data hlen]
  · rw [hL, addThousandsL_count, hsep0]; omega
  · rw [hL, addThousandsL_length]
  · rw [hL]; exact addThousandsL_head s.data h1
  · rw [hL]; exact addThousandsL_head_ne_sep s h1 h2

/-- Witness for C6 at the concrete input of the claim. -/
theorem C6_grouping_witness :
    (add_thousands_separators ⟨['1', '2', '3', '4', '5', '6', '7']⟩).data.count THIN_SPACE
      = ((⟨['1', '2', '3', '4', '5', '6', '7']⟩ : String).data.length + 2) / 3 - 1 :=
  (C6_grouping ⟨['1', '2', '3', '4', '5', '6', '7']⟩ (by decide) (by decide)).2.2.1

end Fmt
